import Mathlib

/-!
Verification of the GPT-APP core: the text preprocessing pipeline
(`src/backend/training_pipeline.py`, class `DataProcessor`) and the model
registry / conversation / streaming layer (`src/model_inference.py`).

Python text is embedded at the level of `List Char`; Python `str` values are
Lean `String`s.  `re.sub` calls of `clean_text` are embedded as executable
functions over `List Char` that implement the exact leftmost/greedy semantics
of the concrete patterns appearing in the source (not a general regex engine).
Machine floats of the source (`overlap_ratio`, `validation_split`) are
embedded as rationals; `int(...)` is truncation toward zero.
-/

/-- Python regex `\s` / `str.split()` whitespace, ASCII range (space, tab,
newline, carriage return, vertical tab, form feed). -/
def isPySpace (c : Char) : Bool :=
  c = ' ' || c = '\t' || c = '\n' || c = '\r' || c = Char.ofNat 11 || c = Char.ofNat 12

/-- Python regex `\w` (ASCII fragment): letters, digits, underscore. -/
def isWordChar (c : Char) : Bool :=
  c.isAlphanum || c = '_'

/-- The whitelist of `clean_text`, from the character class
`[^\w\s\.\,\!\?\;\:\-\(\)\[\]\{\}\"\']` on line 84 of
`training_pipeline.py`: a character survives the filter iff it is a word
character, whitespace, or one of the listed punctuation/bracket/quote marks. -/
def charFilterOk (c : Char) : Bool :=
  isWordChar c || isPySpace c ||
  c = '.' || c = ',' || c = '!' || c = '?' || c = ';' || c = ':' || c = '-' ||
  c = '(' || c = ')' || c = '[' || c = ']' ||
  c = Char.ofNat 123 || c = Char.ofNat 125 || c = Char.ofNat 34 || c = Char.ofNat 39

/-- `re.sub(r'\s+', ' ', text)` (line 81): every maximal run of whitespace
characters is replaced by a single space. -/
def collapseWs : List Char → List Char
  | [] => []
  | [c] => if isPySpace c then [' '] else [c]
  | c :: d :: rest =>
    if isPySpace c then
      if isPySpace d then collapseWs (d :: rest)
      else ' ' :: collapseWs (d :: rest)
    else c :: collapseWs (d :: rest)

/-- `re.sub(r'[^\w\s...]+', '', text)` (line 84): drop every character outside
the whitelist (substituting each maximal run of excluded characters by the
empty string deletes exactly the excluded characters). -/
def charFilter (l : List Char) : List Char :=
  l.filter charFilterOk

/-- Line 87, `re.sub(r'["""]', '"', text)`: the raw string literal is
single-quote delimited, so the class is the three ASCII double quotes, i.e.
the substitution maps `"` to `"`. -/
def quoteNorm1 (l : List Char) : List Char :=
  l.map fun c => if c = Char.ofNat 34 then Char.ofNat 34 else c

/-- Modelled from the spec: line 88 of `training_pipeline.py`
(`text = re.sub(r'[''']', "'", text)`) is not valid Python in the shipped
source - the single-quote delimited raw literal breaks apart, leaving an
unmatched bracket - because the curly-quote characters of the character class
were lost in transit.  The spec says this step "normalizes curly quotes to
straight quotes", so it is modelled as mapping the left/right single curly
quotes U+2018 and U+2019 to the straight apostrophe. -/
def quoteNorm2 (l : List Char) : List Char :=
  l.map fun c =>
    if c = Char.ofNat 0x2018 || c = Char.ofNat 0x2019 then Char.ofNat 39 else c

/-- Single characters matchable inside the URL body of the pattern on line 91:
`(?:[a-zA-Z]|[0-9]|[$-_@.&+]|[!*\\(\\),]|...)`.  `[$-_...]` is the range
U+0024 - U+005F (which already contains the digits, uppercase letters and
`@ . & +`). -/
def isUrlBodyChar (c : Char) : Bool :=
  (0x24 ≤ c.toNat && c.toNat ≤ 0x5F) || (('a' ≤ c) && (c ≤ 'z')) ||
  c = '!' || c = '*' || c = '\\' || c = '(' || c = ')' || c = ','

def isHexDigitChar (c : Char) : Bool :=
  c.isDigit || (('a' ≤ c) && (c ≤ 'f')) || (('A' ≤ c) && (c ≤ 'F'))

/-- Greedy consumption of the URL body `(single-char | %hh)+`: returns the
remainder of the input after the longest possible body.  Fuel-indexed to keep
the recursion structural; the fuel is always instantiated with the input
length, which suffices since every step consumes at least one character. -/
def urlBodyAux : Nat → List Char → List Char
  | 0, l => l
  | n + 1, l =>
    match l with
    | '%' :: h1 :: h2 :: rest =>
      if isHexDigitChar h1 && isHexDigitChar h2 then urlBodyAux n rest else l
    | c :: rest => if isUrlBodyChar c then urlBodyAux n rest else c :: rest
    | [] => []

/-- Attempt to match the URL pattern `http[s]?://body+` at the head of `l`;
on success return the remainder after the (greedy, leftmost) match. -/
def matchUrlAt (l : List Char) : Option (List Char) :=
  let tryBody : List Char → Option (List Char) := fun after =>
    let rem := urlBodyAux after.length after
    if rem.length < after.length then some rem else none
  if l.take 8 = "https://".data then tryBody (l.drop 8)
  else if l.take 7 = "http://".data then tryBody (l.drop 7)
  else none

/-- `re.sub(r'http[s]?://...', '', text)` (line 91): delete every leftmost
non-overlapping match, scanning left to right. -/
def stripUrlsAux : Nat → List Char → List Char
  | 0, l => l
  | _ + 1, [] => []
  | n + 1, c :: cs =>
    match matchUrlAt (c :: cs) with
    | some rem => stripUrlsAux n rem
    | none => c :: stripUrlsAux n cs

def stripUrls (l : List Char) : List Char :=
  stripUrlsAux l.length l

/-- A maximal non-whitespace run is deleted by `re.sub(r'\S+@\S+', '', text)`
iff it contains an `@` that is neither its first nor its last character
(the two `\S+` both need at least one character). -/
def emailRun (run : List Char) : Bool :=
  ((run.drop 1).dropLast).contains '@'

/-- `re.sub(r'\S+@\S+', '', text)` (line 94): process the text run by run;
a qualifying run is removed whole (the leftmost match starts at the start of
the run and the greedy trailing `\S+` extends to its end). -/
def stripEmailsAux : Nat → List Char → List Char
  | 0, l => l
  | _ + 1, [] => []
  | n + 1, c :: cs =>
    if isPySpace c then c :: stripEmailsAux n cs
    else
      let run := (c :: cs).takeWhile fun d => !isPySpace d
      let rest := (c :: cs).dropWhile fun d => !isPySpace d
      if emailRun run then stripEmailsAux n rest else run ++ stripEmailsAux n rest

def stripEmails (l : List Char) : List Char :=
  stripEmailsAux l.length l

/-- Python `str.strip()`: remove leading and trailing whitespace. -/
def pyStrip (l : List Char) : List Char :=
  (((l.dropWhile isPySpace).reverse).dropWhile isPySpace).reverse

/-- The successive substitution steps of `DataProcessor.clean_text`
(lines 78-96), in a form that makes their order a first-class value. -/
inductive CleanStep where
  | collapse
  | filterChars
  | quoteDouble
  | quoteSingle
  | urls
  | emails
  | stripEnds
deriving DecidableEq, Repr

def runCleanStep : CleanStep → List Char → List Char
  | .collapse, l => collapseWs l
  | .filterChars, l => charFilter l
  | .quoteDouble, l => quoteNorm1 l
  | .quoteSingle, l => quoteNorm2 l
  | .urls, l => stripUrls l
  | .emails, l => stripEmails l
  | .stripEnds, l => pyStrip l

/-- The order in which `clean_text` performs its steps in the source:
whitespace collapse (line 81), character filter (line 84), quote
normalization (lines 87-88), URL removal (line 91), email removal (line 94),
final `strip()` (line 96). -/
def cleanStepsSource : List CleanStep :=
  [.collapse, .filterChars, .quoteDouble, .quoteSingle, .urls, .emails, .stripEnds]

/-- `DataProcessor.clean_text`: the steps of `cleanStepsSource` applied in
order. -/
def clean_text (s : String) : String :=
  ⟨cleanStepsSource.foldl (fun l st => runCleanStep st l) s.data⟩

/-- Modelled from the spec: the ordering the specification asserts ("URL/email
stripping must run before whitespace collapse"), with the remaining steps in
their source order.  Used only to compare against `clean_text`. -/
def cleanStepsSpecOrder : List CleanStep :=
  [.urls, .emails, .collapse, .filterChars, .quoteDouble, .quoteSingle, .stripEnds]

/-- The spec-ordered variant of `clean_text`, for refinement comparison. -/
def cleanTextSpecOrder (s : String) : String :=
  ⟨cleanStepsSpecOrder.foldl (fun l st => runCleanStep st l) s.data⟩

/-! ## Word splitting, chunking, dedup and the processing pipeline -/

/-- Python `str.split()` (no argument): split on runs of whitespace, dropping
empty pieces.  `acc` accumulates the current word in reverse. -/
def pySplitAux : List Char → List Char → List (List Char)
  | [], acc => if acc.isEmpty then [] else [acc.reverse]
  | c :: cs, acc =>
    if isPySpace c then
      if acc.isEmpty then pySplitAux cs [] else acc.reverse :: pySplitAux cs []
    else pySplitAux cs (c :: acc)

def pySplitWords (l : List Char) : List (List Char) :=
  pySplitAux l []

/-- `' '.join(words)`. -/
def joinSpace : List (List Char) → List Char
  | [] => []
  | [w] => w
  | w :: ws => w ++ ' ' :: joinSpace ws

/-- Truncation-toward-zero division of an integer by a natural number:
the value of Python `int(a / d)` when `a / d` is exact. -/
def truncDivNat (a : Int) (d : Nat) : Int :=
  if a < 0 then -((((-a).toNat / d : Nat) : Int)) else (((a.toNat / d : Nat) : Int))

/-- Python `int(x * q)` for a natural `x` and an exact rational `q`:
`x * q = (x * q.num) / q.den`, truncated toward zero. -/
def pyIntTimes (x : Nat) (q : ℚ) : Int :=
  truncDivNat ((x : Int) * q.num) q.den

/-- Python `int(n * (1 - v))` for a natural `n` and an exact rational `v`:
`n * (1 - v) = n * (v.den - v.num) / v.den`, truncated toward zero. -/
def pyIntOneSubTimes (n : Nat) (v : ℚ) : Int :=
  truncDivNat ((n : Int) * ((v.den : Int) - v.num)) v.den

/-- Python list slicing `l[:i]` with a possibly negative bound. -/
def pySliceUpto (l : List α) (i : Int) : List α :=
  if 0 ≤ i then l.take i.toNat else l.take (l.length - min l.length i.natAbs)

/-- Python list slicing `l[i:]` with a possibly negative bound. -/
def pySliceFrom (l : List α) (i : Int) : List α :=
  if 0 ≤ i then l.drop i.toNat else l.drop (l.length - min l.length i.natAbs)

/-- Python `range(0, stop, step)` for a positive `step`. -/
def rangePos (stop step : Nat) : List Nat :=
  (List.range ((stop + step - 1) / step)).map (· * step)

/-- `DataProcessingConfig` (lines 37-46 of `training_pipeline.py`).
The source's `overlap_ratio` float field is embedded as the rational field
`overlap_frac`; the other fields keep the source's names. -/
structure DataProcessingConfig where
  max_length : Nat
  min_length : Nat
  overlap_frac : ℚ
  chunk_size : Nat
  validation_split : ℚ
  dedup_enabled : Bool
  language_filter : Option String
deriving DecidableEq, Repr

/-- The source defaults `DataProcessingConfig()`. -/
def defaultDataConfig : DataProcessingConfig :=
  ⟨512, 10, mkRat 1 10, 1000, mkRat 1 10, true, some "en"⟩

/-- A Python exception surfacing from the data pipeline. -/
inductive PyErr where
  | valueError (msg : String)
deriving DecidableEq, Repr

/-- `DataProcessor.chunk_text` (lines 98-112): split into words, walk the
word list with Python `range(0, len(words), chunk_size - overlap_size)`
(a zero step raises `ValueError`, a negative one yields no indices), emit the
space-joined window of `chunk_size` words at each index, and keep a window
only if it has at least `min_length` words. -/
def chunk_text (cfg : DataProcessingConfig) (text : List Char) (chunkSize : Nat) :
    Except PyErr (List (List Char)) :=
  let words := pySplitWords text
  let overlapSize : Int := pyIntTimes chunkSize cfg.overlap_frac
  let step : Int := (chunkSize : Int) - overlapSize
  if step = 0 then .error (.valueError "range() arg 3 must not be zero")
  else if step < 0 then .ok []
  else
    .ok (((rangePos words.length step.toNat).map
        fun i => joinSpace ((words.drop i).take chunkSize)).filter
      fun ch => cfg.min_length ≤ (pySplitWords ch).length)

/-- The dedup key of `remove_duplicates` (line 124):
`hash(text.lower().replace(' ', ''))`, embedded as the case-folded,
space-free text itself (a perfect stand-in for the hash; hash collisions are
below the abstraction level of the claims). -/
def dedupKey (t : List Char) : List Char :=
  (t.map Char.toLower).filter fun c => c ≠ ' '

def removeDupAux : List (List Char) → List (List Char) → List (List Char)
  | [], _ => []
  | t :: ts, seen =>
    if dedupKey t ∈ seen then removeDupAux ts seen
    else t :: removeDupAux ts (dedupKey t :: seen)

/-- `DataProcessor.remove_duplicates` (lines 114-130): identity when disabled,
else keep the first occurrence per dedup key, preserving order. -/
def remove_duplicates (cfg : DataProcessingConfig) (texts : List (List Char)) :
    List (List Char) :=
  if cfg.dedup_enabled then removeDupAux texts [] else texts

/-- A `{instruction, input, output}` training example (lines 147-151). -/
structure TrainingExample where
  instruction : String
  input : String
  output : String
deriving DecidableEq, Repr

/-- Python `str.split(sep)` for a non-empty separator: greedy left-to-right
scan, cutting at every occurrence of `sep`.  Fuel-indexed structural
recursion (the fuel is instantiated with the input length). -/
def splitOnSepAux (sep : List Char) : Nat → List Char → List Char → List (List Char)
  | 0, rest, acc => [acc.reverse ++ rest]
  | _ + 1, [], acc => [acc.reverse]
  | n + 1, c :: cs, acc =>
    if (c :: cs).take sep.length = sep then
      acc.reverse :: splitOnSepAux sep n ((c :: cs).drop sep.length) []
    else splitOnSepAux sep n cs (c :: acc)

def splitOnSep (sep l : List Char) : List (List Char) :=
  splitOnSepAux sep l.length l []

/-- The per-chunk synthesis step of `create_training_examples` (lines
140-152): split the chunk on `". "`; with at least two sentences, the first
sentence plus a restored period becomes the instruction context and the
rejoined remainder the output; otherwise no example. -/
def exampleOfChunk (chunk : List Char) : Option TrainingExample :=
  let sentences := splitOnSep ". ".data chunk
  if 2 ≤ sentences.length then
    some ⟨String.mk ("Continue the following text: ".data ++ (sentences.headD [] ++ ['.'])),
          "", String.mk (List.intercalate ". ".data (sentences.drop 1))⟩
  else none

/-- `DataProcessor.create_training_examples` (lines 132-154): chunk every
text with the configured chunk size and synthesize an example per qualifying
chunk, in order. -/
def create_training_examples (cfg : DataProcessingConfig)
    (texts : List (List Char)) : Except PyErr (List TrainingExample) := do
  let chunked ← texts.mapM fun t => chunk_text cfg t cfg.chunk_size
  return (chunked.flatMap id).filterMap exampleOfChunk

/-- `DataProcessor.load_text_files` (lines 65-76): read every file, skipping
(not failing on) unreadable ones.  The outcome of each `open`/`read` is an
input to the embedding. -/
def load_text_files (reads : List (Except String String)) : List String :=
  reads.filterMap fun r => match r with | .ok s => some s | .error _ => none

/-- `DataProcessor.process_data` (lines 156-183): load, clean, dedup,
synthesize, then split the example list at index
`int(len(examples) * (1 - validation_split))` into train and validation. -/
def process_data (cfg : DataProcessingConfig)
    (reads : List (Except String String)) :
    Except PyErr (List TrainingExample × List TrainingExample) :=
  match create_training_examples cfg (remove_duplicates cfg
    ((load_text_files reads).map fun t => (clean_text t).data)) with
  | .error e => .error e
  | .ok examples =>
    .ok (pySliceUpto examples (pyIntOneSubTimes examples.length cfg.validation_split),
         pySliceFrom examples (pyIntOneSubTimes examples.length cfg.validation_split))

/-! ## `model_inference.py`: conversations, the model registry, streaming -/

/-- One stored turn: `{"role": ..., "content": ..., "timestamp": ...}`
(lines 93-97 of `model_inference.py`).  `datetime.now().isoformat()` is an
input of the embedding. -/
structure Message where
  role : String
  content : String
  timestamp : String
deriving DecidableEq, Repr

/-- Python `dict` lookup on an insertion-ordered association list. -/
def dictGet? : List (String × α) → String → Option α
  | [], _ => none
  | p :: d, k => if p.1 = k then some p.2 else dictGet? d k

/-- Python `dict` assignment: replace in place if the key exists (keeping its
position), else append at the end. -/
def dictSet (d : List (String × α)) (k : String) (v : α) : List (String × α) :=
  if (dictGet? d k).isSome then d.map fun p => if p.1 = k then (k, v) else p
  else d ++ [(k, v)]

/-- Python `del dict[k]` (for a present key; on an absent key this is the
identity, and the source guards against that case). -/
def dictDel (d : List (String × α)) (k : String) : List (String × α) :=
  d.filter fun p => p.1 ≠ k

/-- `ConversationManager` (lines 76-122): a max-history bound and the
conversation dictionary. -/
structure ConversationManager where
  max_history : Nat
  conversations : List (String × List Message)
deriving DecidableEq, Repr

/-- `ConversationManager.create_conversation` (lines 83-86). -/
def create_conversation (cm : ConversationManager) (cid : String) : ConversationManager :=
  ⟨cm.max_history, dictSet cm.conversations cid []⟩

/-- The stored turn list of one conversation (absent ids read as empty). -/
def turnsOf (cm : ConversationManager) (cid : String) : List Message :=
  (dictGet? cm.conversations cid).getD []

/-- `ConversationManager.add_message` (lines 88-104): create the conversation
if missing, append the message, then - if the list exceeds
`max_history * 2` - keep `l[-max_history * 2:]`.  Note Python's `-0`: with
`max_history = 0` the slice `l[-0:]` is the whole list, so no trimming
happens. -/
def add_message (cm : ConversationManager) (cid role content ts : String) :
    ConversationManager :=
  let cm1 := if (dictGet? cm.conversations cid).isSome then cm else create_conversation cm cid
  let msgs := (dictGet? cm1.conversations cid).getD [] ++ [⟨role, content, ts⟩]
  let msgs := if cm.max_history * 2 < msgs.length then
      pySliceFrom msgs (-(cm.max_history * 2 : Int))
    else msgs
  ⟨cm.max_history, dictSet cm1.conversations cid msgs⟩

/-- Python `str.title()` (ASCII fragment): uppercase a letter after a
non-letter, lowercase a letter after a letter. -/
def pyTitleAux : Bool → List Char → List Char
  | _, [] => []
  | prev, c :: cs =>
    if c.isAlpha then (if prev then c.toLower else c.toUpper) :: pyTitleAux true cs
    else c :: pyTitleAux false cs

def pyTitle (s : String) : String :=
  ⟨pyTitleAux false s.data⟩

/-- `ConversationManager.get_conversation_context` (lines 106-117): newline-
joined `Role: content` lines, oldest first; unknown ids give `""`. -/
def get_conversation_context (cm : ConversationManager) (cid : String) : String :=
  match dictGet? cm.conversations cid with
  | none => ""
  | some msgs =>
    String.mk (List.intercalate ['\n']
      (msgs.map fun m => (pyTitle m.role).data ++ ": ".data ++ m.content.data))

/-- `ConversationManager.clear_conversation` (lines 119-122): empty (do not
remove) a present id; unknown ids are untouched. -/
def clear_conversation (cm : ConversationManager) (cid : String) : ConversationManager :=
  if (dictGet? cm.conversations cid).isSome then ⟨cm.max_history, dictSet cm.conversations cid []⟩
  else cm

/-- The operations the rest of the system performs on a
`ConversationManager`, for stating "after any sequence of operations". -/
inductive ConvOp where
  | add (cid role content ts : String)
  | clear (cid : String)
  | create (cid : String)
deriving DecidableEq, Repr

def applyConvOp (cm : ConversationManager) : ConvOp → ConversationManager
  | .add cid role content ts => add_message cm cid role content ts
  | .clear cid => clear_conversation cm cid
  | .create cid => create_conversation cm cid

def runConvOps (cm : ConversationManager) (ops : List ConvOp) : ConversationManager :=
  ops.foldl applyConvOp cm

/-- A fresh `ConversationManager(max_history)` (line 79-81). -/
def emptyConvManager (m : Nat) : ConversationManager :=
  ⟨m, []⟩

/-- A loaded `ModelInference` instance, abstracted to the data the registry
tracks about it (its construction path; the tensors behind it live behind the
generation oracle that `chat` takes as an argument). -/
structure ModelHandle where
  model_path : String
deriving DecidableEq, Repr

/-- `Path(model_path).name`: the last non-empty `/`-separated segment. -/
def pathName (p : String) : String :=
  String.mk (((((splitOnSep ['/'] p.data)).filter fun s => s ≠ []).getLast?).getD [])

/-- The exceptions crossing `ModelManager`'s interface: `ValueError`
(lines 450, 463, 489) and `ModelInferenceError` (raised inside
`ModelInference` and propagated through lines 414-426). -/
inductive PyExn where
  | valueError (msg : String)
  | modelInferenceError (msg : String)
deriving DecidableEq, Repr

/-- `ModelManager` state (lines 398-404). -/
structure ModelManager where
  models : List (String × ModelHandle)
  conversation_manager : ConversationManager
  default_model_id : Option String
deriving DecidableEq, Repr

/-- `ModelManager()` (lines 401-404): `ConversationManager()` defaults to
`max_history = 10`. -/
def emptyModelManager : ModelManager :=
  ⟨[], emptyConvManager 10, none⟩

/-- `ModelManager.load_model` (lines 406-426).  `loadResult` is the outcome
of the `ModelInference(model_path)` construction (the filesystem/tensor side
of loading is outside the embedding); an exception there propagates and
leaves the registry untouched. -/
def load_model (m : ModelManager) (model_path : String) (mid? : Option String)
    (loadResult : Except String ModelHandle) : Except PyExn String × ModelManager :=
  let mid := mid?.getD (pathName model_path)
  match loadResult with
  | .error e => (.error (.modelInferenceError e), m)
  | .ok h =>
    let models := dictSet m.models mid h
    let d := if m.default_model_id = none then some mid else m.default_model_id
    (.ok mid, ⟨models, m.conversation_manager, d⟩)

/-- `ModelManager.unload_model` (lines 428-434): delete a present id; when it
was the default, promote `next(iter(models))` (the first remaining key in
insertion order) or clear the default if none remain.  Unknown ids are a
no-op. -/
def unload_model (m : ModelManager) (mid : String) : ModelManager :=
  if (dictGet? m.models mid).isSome then
    let models := dictDel m.models mid
    let d := if m.default_model_id = some mid then models.head?.map Prod.fst
      else m.default_model_id
    ⟨models, m.conversation_manager, d⟩
  else m

/-- `ModelManager.set_default_model` (lines 447-451): `ValueError` on an
unloaded id, else set the default. -/
def set_default_model (m : ModelManager) (mid : String) :
    Except PyExn Unit × ModelManager :=
  if (dictGet? m.models mid).isSome then
    (.ok (), ⟨m.models, m.conversation_manager, some mid⟩)
  else (.error (.valueError ("Model " ++ mid ++ " not loaded")), m)

/-- The message of the `ValueError` on lines 463 and 489. -/
def noModelMsg : String :=
  "No model available for inference"

/-- The model id `chat`/`chat_streaming` operate on: the argument if given,
else the current default (lines 459-460, 485-486). -/
def resolveModelId (m : ModelManager) (mid? : Option String) : Option String :=
  if mid? = none then m.default_model_id else mid?

/-- `ModelManager.chat` (lines 453-477).  `gen` is the outcome of
`ModelInference.generate_response(message, config, context)` on the resolved
handle; `ts1`/`ts2` are the two `datetime.now()` readings of the appended
turns.  Returns the call's outcome together with the post-call state: a
failed call leaves the state unchanged, a successful one appends the user
turn and then the assistant turn to the conversation. -/
def ModelManager.chat (m : ModelManager)
    (gen : ModelHandle → String → String → Except String String)
    (message cid : String) (mid? : Option String) (ts1 ts2 : String) :
    Except PyExn String × ModelManager :=
  match resolveModelId m mid? with
  | none => (.error (.valueError noModelMsg), m)
  | some mid =>
    match dictGet? m.models mid with
    | none => (.error (.valueError noModelMsg), m)
    | some h =>
      let context := get_conversation_context m.conversation_manager cid
      match gen h message context with
      | .error e => (.error (.modelInferenceError ("Failed to generate response: " ++ e)), m)
      | .ok response =>
        let cm := add_message m.conversation_manager cid "user" message ts1
        let cm := add_message cm cid "assistant" response ts2
        (.ok response, ⟨m.models, cm, m.default_model_id⟩)

/-- `ModelManager.chat_streaming` (lines 479-504), a Python generator.
`gen` is the full fragment sequence the generation worker would produce;
`requested` is how many `next()` calls the consumer makes.  The two
`add_message` calls sit after the `for` loop, so they run only when the
consumer iterates past the last fragment (`requested > |fragments|`, the
drained case); abandoning the generator at or before the last fragment
leaves the conversation store untouched.  Returns the yielded fragments and
the post-call state. -/
def chat_streaming (m : ModelManager)
    (gen : ModelHandle → String → String → Except String (List String))
    (message cid : String) (mid? : Option String) (ts1 ts2 : String)
    (requested : Nat) : Except PyExn (List String) × ModelManager :=
  match resolveModelId m mid? with
  | none => (.error (.valueError noModelMsg), m)
  | some mid =>
    match dictGet? m.models mid with
    | none => (.error (.valueError noModelMsg), m)
    | some h =>
      let context := get_conversation_context m.conversation_manager cid
      match gen h message context with
      | .error e =>
        (.error (.modelInferenceError ("Failed to generate streaming response: " ++ e)), m)
      | .ok toks =>
        if requested ≤ toks.length then (.ok (toks.take requested), m)
        else
          let full := String.mk (toks.flatMap String.data)
          let cm := add_message m.conversation_manager cid "user" message ts1
          let cm := add_message cm cid "assistant" full ts2
          (.ok toks, ⟨m.models, cm, m.default_model_id⟩)

/-- The registry operations, for reachability of `ModelManager` states. -/
inductive MgrOp where
  | load (path : String) (mid? : Option String) (loadResult : Except String ModelHandle)
  | unload (mid : String)
  | setDefault (mid : String)
  | chat (gen : ModelHandle → String → String → Except String String)
      (message cid : String) (mid? : Option String) (ts1 ts2 : String)
  | chatStreaming (gen : ModelHandle → String → String → Except String (List String))
      (message cid : String) (mid? : Option String) (ts1 ts2 : String) (requested : Nat)
  | clearConv (cid : String)

def applyMgrOp (m : ModelManager) : MgrOp → ModelManager
  | .load path mid? lr => (load_model m path mid? lr).2
  | .unload mid => unload_model m mid
  | .setDefault mid => (set_default_model m mid).2
  | .chat gen message cid mid? ts1 ts2 => (m.chat gen message cid mid? ts1 ts2).2
  | .chatStreaming gen message cid mid? ts1 ts2 req =>
    (chat_streaming m gen message cid mid? ts1 ts2 req).2
  | .clearConv cid => ⟨m.models, clear_conversation m.conversation_manager cid, m.default_model_id⟩

/-- States of the registry reachable from `ModelManager()` by its public
operations. -/
inductive ReachableMgr : ModelManager → Prop where
  | init : ReachableMgr emptyModelManager
  | step (m : ModelManager) (op : MgrOp) : ReachableMgr m → ReachableMgr (applyMgrOp m op)

/-- The calls `model.generate(...)` makes into the `CustomStreamer`
(lines 309-341): `put(value)` hands over the last tensor dimension's token
ids (the initial call carries the whole prompt batch, later calls one new
token each), `end()` signals completion. -/
inductive StreamerCall where
  | put (ids : List Nat)
  | endCall
deriving DecidableEq, Repr

/-- The queue contents produced by a sequence of streamer calls, given the
tokenizer's `eos_token_id` and its single-token `decode`:
`put` enqueues `decode([token_id])` only for a single-token value whose id
differs from `eos_token_id` (lines 316-321); `end` enqueues the `None`
sentinel (lines 323-325). -/
def streamerQueue (eos : Nat) (decode : Nat → String) :
    List StreamerCall → List (Option String)
  | [] => []
  | .put [tid] :: calls =>
    if tid ≠ eos then some (decode tid) :: streamerQueue eos decode calls
    else streamerQueue eos decode calls
  | .put _ :: calls => streamerQueue eos decode calls
  | .endCall :: calls => none :: streamerQueue eos decode calls

/-- The consumer's `__next__` loop (lines 330-340): yield queue items until
the `None` sentinel, which terminates iteration and is never yielded. -/
def streamDrain : List (Option String) → List String
  | [] => []
  | none :: _ => []
  | some t :: rest => t :: streamDrain rest

/-- The fragment sequence `generate_streaming_response` yields for a given
call trace (lines 342-371). -/
def streamerYields (eos : Nat) (decode : Nat → String) (calls : List StreamerCall) :
    List String :=
  streamDrain (streamerQueue eos decode calls)

/-! ## Dictionary and slicing lemmas -/

theorem dictGet?_replace_self (d : List (String × α)) (k : String) (v : α) :
    dictGet? (d.map fun p => if p.1 = k then (k, v) else p) k
      = if (dictGet? d k).isSome then some v else none := by
  induction d with
  | nil => simp [dictGet?]
  | cons p d ih =>
    by_cases hp : p.1 = k
    · simp [dictGet?, hp]
    · simp [dictGet?, hp, ih]

theorem dictGet?_replace_ne (d : List (String × α)) (k k' : String) (v : α)
    (h : k' ≠ k) :
    dictGet? (d.map fun p => if p.1 = k then (k, v) else p) k' = dictGet? d k' := by
  induction d with
  | nil => rfl
  | cons p d ih =>
    by_cases hp : p.1 = k
    · have : ¬(k = k') := fun he => h he.symm
      simp [dictGet?, hp, this, ih, fun he : p.1 = k' => h (hp ▸ he : (k : String) = k').symm]
    · by_cases hpk : p.1 = k'
      · simp only [List.map_cons]
        rw [if_neg hp]
        simp [dictGet?, hpk]
      · simp only [List.map_cons]
        rw [if_neg hp]
        simp [dictGet?, hpk, ih]

theorem dictGet?_append (d d' : List (String × α)) (k : String) :
    dictGet? (d ++ d') k
      = match dictGet? d k with
        | some v => some v
        | none => dictGet? d' k := by
  induction d with
  | nil => rfl
  | cons p d ih =>
    by_cases hp : p.1 = k
    · simp [dictGet?, hp]
    · simp [dictGet?, hp, ih]

theorem dictGet?_dictSet_self (d : List (String × α)) (k : String) (v : α) :
    dictGet? (dictSet d k v) k = some v := by
  unfold dictSet
  by_cases h : (dictGet? d k).isSome
  · simp [h, dictGet?_replace_self]
  · rw [if_neg h, dictGet?_append]
    rcases hf : dictGet? d k with _ | w
    · simp [dictGet?]
    · simp [hf] at h

theorem dictGet?_dictSet_ne (d : List (String × α)) (k k' : String) (v : α)
    (h : k' ≠ k) : dictGet? (dictSet d k v) k' = dictGet? d k' := by
  unfold dictSet
  by_cases hs : (dictGet? d k).isSome
  · simp [hs, dictGet?_replace_ne _ _ _ _ h]
  · rw [if_neg hs, dictGet?_append]
    rcases hf : dictGet? d k' with _ | w
    · have : ¬(k = k') := fun he => h he.symm
      simp [dictGet?, this]
    · rfl

theorem pySliceFrom_neg_length (l : List α) (i : Int) (hi : i < 0) :
    (pySliceFrom l i).length = min l.length i.natAbs := by
  unfold pySliceFrom
  rw [if_neg (by omega)]
  simp
  omega

theorem pySliceFrom_suffix (l : List α) (i : Int) :
    (pySliceFrom l i).IsSuffix l := by
  unfold pySliceFrom
  by_cases h : 0 ≤ i
  · rw [if_pos h]; exact List.drop_suffix _ _
  · rw [if_neg h]; exact List.drop_suffix _ _

theorem turnsOf_create_self (cm : ConversationManager) (cid : String) :
    turnsOf (create_conversation cm cid) cid = [] := by
  unfold turnsOf create_conversation
  simp [dictGet?_dictSet_self]

theorem turnsOf_create_ne (cm : ConversationManager) (cid cid2 : String)
    (h : cid2 ≠ cid) : turnsOf (create_conversation cm cid) cid2 = turnsOf cm cid2 := by
  unfold turnsOf create_conversation
  simp [dictGet?_dictSet_ne _ _ _ _ h]

theorem max_history_create (cm : ConversationManager) (cid : String) :
    (create_conversation cm cid).max_history = cm.max_history := rfl

/-- What one `add_message` does to the touched conversation: append, then
keep the Python slice `l[-max_history * 2:]` if over the cap. -/
theorem turnsOf_add_message_self (cm : ConversationManager) (cid r c ts : String) :
    turnsOf (add_message cm cid r c ts) cid =
      (if cm.max_history * 2 < (turnsOf cm cid ++ [Message.mk r c ts]).length then
        pySliceFrom (turnsOf cm cid ++ [Message.mk r c ts]) (-(cm.max_history * 2 : Int))
      else turnsOf cm cid ++ [Message.mk r c ts]) := by
  unfold add_message
  by_cases h : (dictGet? cm.conversations cid).isSome
  · simp only [h, if_true]
    unfold turnsOf
    simp [dictGet?_dictSet_self]
  · simp only [h, if_false]
    have habs : dictGet? cm.conversations cid = none := by
      rcases hf : dictGet? cm.conversations cid with _ | w
      · rfl
      · simp [hf] at h
    have h0 : turnsOf cm cid = [] := by simp [turnsOf, habs]
    unfold turnsOf create_conversation
    simp [dictGet?_dictSet_self, h0, habs, Nat.lt_one_iff]

theorem turnsOf_add_message_ne (cm : ConversationManager) (cid cid2 r c ts : String)
    (h : cid2 ≠ cid) :
    turnsOf (add_message cm cid r c ts) cid2 = turnsOf cm cid2 := by
  unfold add_message
  by_cases hp : (dictGet? cm.conversations cid).isSome
  · simp only [hp, if_true]
    unfold turnsOf
    simp [dictGet?_dictSet_ne _ _ _ _ h]
  · simp only [hp, if_false]
    unfold turnsOf create_conversation
    simp [dictGet?_dictSet_ne _ _ _ _ h]

theorem max_history_add_message (cm : ConversationManager) (cid r c ts : String) :
    (add_message cm cid r c ts).max_history = cm.max_history := rfl

theorem turnsOf_clear_self (cm : ConversationManager) (cid : String) :
    turnsOf (clear_conversation cm cid) cid = [] := by
  unfold clear_conversation
  by_cases h : (dictGet? cm.conversations cid).isSome
  · simp only [h, if_true]
    simp [turnsOf, dictGet?_dictSet_self]
  · simp only [h, if_false]
    have habs : dictGet? cm.conversations cid = none := by
      rcases hf : dictGet? cm.conversations cid with _ | w
      · rfl
      · simp [hf] at h
    simp [turnsOf, habs]

theorem turnsOf_clear_ne (cm : ConversationManager) (cid cid2 : String)
    (h : cid2 ≠ cid) : turnsOf (clear_conversation cm cid) cid2 = turnsOf cm cid2 := by
  unfold clear_conversation
  by_cases hp : (dictGet? cm.conversations cid).isSome
  · simp only [hp, if_true]
    simp [turnsOf, dictGet?_dictSet_ne _ _ _ _ h]
  · rw [if_neg hp]

theorem max_history_clear (cm : ConversationManager) (cid : String) :
    (clear_conversation cm cid).max_history = cm.max_history := by
  unfold clear_conversation
  by_cases h : (dictGet? cm.conversations cid).isSome <;> simp [h]

theorem max_history_applyConvOp (cm : ConversationManager) (op : ConvOp) :
    (applyConvOp cm op).max_history = cm.max_history := by
  cases op with
  | add cid r c ts => exact max_history_add_message cm cid r c ts
  | clear cid => exact max_history_clear cm cid
  | create cid => exact max_history_create cm cid

theorem turnsOf_applyConvOp_le (m : Nat) (hm : 1 ≤ m) (cm : ConversationManager)
    (hmax : cm.max_history = m) (op : ConvOp) (cid : String)
    (hbound : (turnsOf cm cid).length ≤ 2 * m) :
    (turnsOf (applyConvOp cm op) cid).length ≤ 2 * m := by
  cases op with
  | add cid2 r c ts =>
    by_cases hc : cid = cid2
    · subst hc
      rw [show applyConvOp cm (ConvOp.add cid r c ts) = add_message cm cid r c ts from rfl,
        turnsOf_add_message_self, hmax]
      by_cases hover : m * 2 < (turnsOf cm cid ++ [Message.mk r c ts]).length
      · rw [if_pos hover, pySliceFrom_neg_length _ _ (by omega)]
        have : (-((m : Int) * 2)).natAbs = m * 2 := by omega
        omega
      · rw [if_neg hover]
        omega
    · rw [show applyConvOp cm (ConvOp.add cid2 r c ts) = add_message cm cid2 r c ts from rfl,
        turnsOf_add_message_ne _ _ _ _ _ _ hc]
      exact hbound
  | clear cid2 =>
    by_cases hc : cid = cid2
    · subst hc
      rw [show applyConvOp cm (ConvOp.clear cid) = clear_conversation cm cid from rfl,
        turnsOf_clear_self]
      simp
    · rw [show applyConvOp cm (ConvOp.clear cid2) = clear_conversation cm cid2 from rfl,
        turnsOf_clear_ne _ _ _ hc]
      exact hbound
  | create cid2 =>
    by_cases hc : cid = cid2
    · subst hc
      rw [show applyConvOp cm (ConvOp.create cid) = create_conversation cm cid from rfl,
        turnsOf_create_self]
      simp
    · rw [show applyConvOp cm (ConvOp.create cid2) = create_conversation cm cid2 from rfl,
        turnsOf_create_ne _ _ _ hc]
      exact hbound

theorem runConvOps_le (m : Nat) (hm : 1 ≤ m) :
    ∀ ops : List ConvOp, ∀ cm : ConversationManager, cm.max_history = m →
      (∀ cid, (turnsOf cm cid).length ≤ 2 * m) →
      ∀ cid, (turnsOf (runConvOps cm ops) cid).length ≤ 2 * m := by
  intro ops
  induction ops with
  | nil => intro cm _ hb cid; exact hb cid
  | cons op ops ih =>
    intro cm hmax hb cid
    exact ih (applyConvOp cm op) (by rw [max_history_applyConvOp, hmax])
      (fun cid2 => turnsOf_applyConvOp_le m hm cm hmax op cid2 (hb cid2)) cid

/-- C3 counterexample: with `maxHistory = 0` the claimed bound
`length ≤ 2 × maxHistory` fails after a single append, because the trimming
slice `l[-max_history * 2:]` is `l[-0:] = l[0:]`, the whole list - Python's
`-0` disables trimming. -/
theorem c3_counterexample :
    ¬((turnsOf (runConvOps (emptyConvManager 0) [ConvOp.add "c" "user" "hi" "t0"]) "c").length
        ≤ 2 * 0) := by decide

/-- C3 (amended to `1 ≤ maxHistory`): after any operation sequence every
conversation holds at most `2 × maxHistory` turns; an append always keeps a
suffix of the old turns plus the new one (FIFO eviction of the oldest); and
with `maxHistory = 3`, seven appends leave exactly the six most recent
turns. -/
theorem c3_theorem (m : Nat) (hm : 1 ≤ m) :
    (∀ ops : List ConvOp, ∀ cid,
        (turnsOf (runConvOps (emptyConvManager m) ops) cid).length ≤ 2 * m)
    ∧ (∀ cm : ConversationManager, ∀ cid r c ts,
        (turnsOf (add_message cm cid r c ts) cid).IsSuffix
          (turnsOf cm cid ++ [Message.mk r c ts]))
    ∧ turnsOf (runConvOps (emptyConvManager 3)
        [ConvOp.add "c" "user" "m1" "t1", ConvOp.add "c" "assistant" "m2" "t2",
         ConvOp.add "c" "user" "m3" "t3", ConvOp.add "c" "assistant" "m4" "t4",
         ConvOp.add "c" "user" "m5" "t5", ConvOp.add "c" "assistant" "m6" "t6",
         ConvOp.add "c" "user" "m7" "t7"]) "c"
      = [Message.mk "assistant" "m2" "t2", Message.mk "user" "m3" "t3",
         Message.mk "assistant" "m4" "t4", Message.mk "user" "m5" "t5",
         Message.mk "assistant" "m6" "t6", Message.mk "user" "m7" "t7"] := by
  refine ⟨fun ops cid => runConvOps_le m hm ops (emptyConvManager m) rfl ?_ cid, ?_, ?_⟩
  · intro cid
    show (turnsOf (emptyConvManager m) cid).length ≤ 2 * m
    simp [turnsOf, emptyConvManager, dictGet?]
  · intro cm cid r c ts
    rw [turnsOf_add_message_self]
    by_cases hover : cm.max_history * 2 < (turnsOf cm cid ++ [Message.mk r c ts]).length
    · rw [if_pos hover]
      exact pySliceFrom_suffix _ _
    · rw [if_neg hover]
  · decide

theorem c3_witness :
    (1 ≤ 3)
    ∧ ((turnsOf (runConvOps (emptyConvManager 3) [ConvOp.add "a" "user" "x" "t"]) "a").length
        ≤ 2 * 3) :=
  ⟨by decide, (c3_theorem 3 (by decide)).1 [ConvOp.add "a" "user" "x" "t"] "a"⟩

theorem turnsOf_add_message_self_no_trim (cm : ConversationManager) (cid r c ts : String)
    (h : (turnsOf cm cid).length + 1 ≤ 2 * cm.max_history) :
    turnsOf (add_message cm cid r c ts) cid = turnsOf cm cid ++ [Message.mk r c ts] := by
  rw [turnsOf_add_message_self, if_neg (by simp; omega)]

/-- C2: a successful `chat` leaves the registry untouched except for
appending the user turn and then the assistant turn to `conversation_id`
(exactly two turns when within the history cap, other conversations
untouched); any failing `chat` leaves the whole state unchanged; a
`chat_streaming` sequence abandoned at or before its last fragment leaves
the state unchanged (the appends run only once the consumer iterates past
the end), and a fully drained one appends the user turn and the
concatenated assistant turn. -/
theorem c2_theorem (m : ModelManager)
    (gen : ModelHandle → String → String → Except String String)
    (genS : ModelHandle → String → String → Except String (List String))
    (message cid : String) (mid? : Option String) (ts1 ts2 : String) :
    (∀ response m2, m.chat gen message cid mid? ts1 ts2 = (.ok response, m2) →
      m2.models = m.models ∧ m2.default_model_id = m.default_model_id ∧
      (∀ cid2, cid2 ≠ cid →
        turnsOf m2.conversation_manager cid2 = turnsOf m.conversation_manager cid2) ∧
      ((turnsOf m.conversation_manager cid).length + 2
          ≤ 2 * m.conversation_manager.max_history →
        turnsOf m2.conversation_manager cid
          = turnsOf m.conversation_manager cid
            ++ [Message.mk "user" message ts1, Message.mk "assistant" response ts2]))
    ∧ (∀ e, (m.chat gen message cid mid? ts1 ts2).1 = .error e →
        (m.chat gen message cid mid? ts1 ts2).2 = m)
    ∧ (∀ requested mid h toks, resolveModelId m mid? = some mid →
        dictGet? m.models mid = some h →
        genS h message (get_conversation_context m.conversation_manager cid) = .ok toks →
        requested ≤ toks.length →
        chat_streaming m genS message cid mid? ts1 ts2 requested
          = (.ok (toks.take requested), m))
    ∧ (∀ requested mid h toks, resolveModelId m mid? = some mid →
        dictGet? m.models mid = some h →
        genS h message (get_conversation_context m.conversation_manager cid) = .ok toks →
        toks.length < requested →
        ∃ m2, chat_streaming m genS message cid mid? ts1 ts2 requested = (.ok toks, m2)
          ∧ m2.models = m.models ∧ m2.default_model_id = m.default_model_id
          ∧ (∀ cid2, cid2 ≠ cid →
              turnsOf m2.conversation_manager cid2 = turnsOf m.conversation_manager cid2)
          ∧ ((turnsOf m.conversation_manager cid).length + 2
                ≤ 2 * m.conversation_manager.max_history →
              turnsOf m2.conversation_manager cid
                = turnsOf m.conversation_manager cid
                  ++ [Message.mk "user" message ts1,
                      Message.mk "assistant" (String.mk (toks.flatMap String.data)) ts2])) := by
  refine ⟨?_, ?_, ?_, ?_⟩
  · intro response m2 heq
    rcases hr : resolveModelId m mid? with _ | mid
    · simp [ModelManager.chat, hr] at heq
    rcases hl : dictGet? m.models mid with _ | h
    · simp [ModelManager.chat, hr, hl] at heq
    rcases hg : gen h message (get_conversation_context m.conversation_manager cid)
      with e | resp
    · simp [ModelManager.chat, hr, hl, hg] at heq
    simp only [ModelManager.chat, hr, hl, hg, Prod.mk.injEq, Except.ok.injEq] at heq
    obtain ⟨hresp, hm2⟩ := heq
    subst hresp
    subst hm2
    refine ⟨rfl, rfl, ?_, ?_⟩
    · intro cid2 hne
      show turnsOf (add_message (add_message m.conversation_manager cid "user" message ts1)
        cid "assistant" resp ts2) cid2 = _
      rw [turnsOf_add_message_ne _ _ _ _ _ _ hne, turnsOf_add_message_ne _ _ _ _ _ _ hne]
    · intro hcap
      show turnsOf (add_message (add_message m.conversation_manager cid "user" message ts1)
        cid "assistant" resp ts2) cid = _
      have h1 := turnsOf_add_message_self_no_trim m.conversation_manager cid "user" message ts1
        (by omega)
      have h2 := turnsOf_add_message_self_no_trim
        (add_message m.conversation_manager cid "user" message ts1) cid "assistant" resp ts2
        (by rw [max_history_add_message, h1]; simp; omega)
      rw [h2, h1, List.append_assoc]
      rfl
  · intro e heq
    rcases hr : resolveModelId m mid? with _ | mid
    · simp [ModelManager.chat, hr]
    rcases hl : dictGet? m.models mid with _ | h
    · simp [ModelManager.chat, hr, hl]
    rcases hg : gen h message (get_conversation_context m.conversation_manager cid)
      with e2 | resp
    · simp [ModelManager.chat, hr, hl, hg]
    · simp [ModelManager.chat, hr, hl, hg] at heq
  · intro requested mid h toks hr hl hg hreq
    simp only [chat_streaming, hr, hl, hg]
    rw [if_pos hreq]
  · intro requested mid h toks hr hl hg hreq
    simp only [chat_streaming, hr, hl, hg]
    rw [if_neg (by omega)]
    refine ⟨_, rfl, rfl, rfl, ?_, ?_⟩
    · intro cid2 hne
      rw [turnsOf_add_message_ne _ _ _ _ _ _ hne, turnsOf_add_message_ne _ _ _ _ _ _ hne]
    · intro hcap
      have h1 := turnsOf_add_message_self_no_trim m.conversation_manager cid "user" message ts1
        (by omega)
      have h2 := turnsOf_add_message_self_no_trim
        (add_message m.conversation_manager cid "user" message ts1) cid "assistant"
        (String.mk (toks.flatMap String.data)) ts2
        (by rw [max_history_add_message, h1]; simp; omega)
      rw [h2, h1, List.append_assoc]
      rfl

/-- A registry with exactly one loaded model, id `m1` (derived from the
path), for concrete instantiations. -/
def mgrWithM1 : ModelManager :=
  (load_model emptyModelManager "models/m1" none (Except.ok ⟨"models/m1"⟩)).2

/-- The registry state after `chat("hi", "c1")` against `mgrWithM1` with a
generation oracle answering `"hello"`. -/
def mgrAfterChat : ModelManager :=
  ⟨[("m1", ⟨"models/m1"⟩)],
   ⟨10, [("c1", [Message.mk "user" "hi" "t1", Message.mk "assistant" "hello" "t2"])]⟩,
   some "m1"⟩

theorem c2_witness :
    turnsOf mgrAfterChat.conversation_manager "c1"
      = turnsOf mgrWithM1.conversation_manager "c1"
        ++ [Message.mk "user" "hi" "t1", Message.mk "assistant" "hello" "t2"] :=
  ((c2_theorem mgrWithM1 (fun _ _ _ => Except.ok "hello") (fun _ _ _ => Except.ok [])
      "hi" "c1" none "t1" "t2").1 "hello" mgrAfterChat (by rfl)).2.2.2 (by decide)

/-- C4: `chat`/`chat_streaming` resolve the model id to the default when the
argument is omitted, fail with `ValueError("No model available for
inference")` exactly when the resolved id is absent or not loaded, and
otherwise surface the generation outcome. -/
theorem c4_theorem (m : ModelManager)
    (gen : ModelHandle → String → String → Except String String)
    (genS : ModelHandle → String → String → Except String (List String))
    (message cid : String) (mid? : Option String) (ts1 ts2 : String) (requested : Nat) :
    (mid? = none → resolveModelId m mid? = m.default_model_id)
    ∧ (∀ mid, mid? = some mid → resolveModelId m mid? = some mid)
    ∧ ((m.chat gen message cid mid? ts1 ts2).1 = .error (.valueError noModelMsg)
        ↔ (resolveModelId m mid? = none
           ∨ ∃ mid, resolveModelId m mid? = some mid ∧ dictGet? m.models mid = none))
    ∧ ((chat_streaming m genS message cid mid? ts1 ts2 requested).1
          = .error (.valueError noModelMsg)
        ↔ (resolveModelId m mid? = none
           ∨ ∃ mid, resolveModelId m mid? = some mid ∧ dictGet? m.models mid = none))
    ∧ (∀ mid h, resolveModelId m mid? = some mid → dictGet? m.models mid = some h →
        (∀ r, gen h message (get_conversation_context m.conversation_manager cid) = .ok r →
          (m.chat gen message cid mid? ts1 ts2).1 = .ok r)
        ∧ (∀ e, gen h message (get_conversation_context m.conversation_manager cid)
              = .error e →
          (m.chat gen message cid mid? ts1 ts2).1
            = .error (.modelInferenceError ("Failed to generate response: " ++ e)))) := by
  refine ⟨fun h => by simp [resolveModelId, h], fun mid h => by simp [resolveModelId, h],
    ?_, ?_, ?_⟩
  · rcases hr : resolveModelId m mid? with _ | mid
    · simp [ModelManager.chat, hr]
    rcases hl : dictGet? m.models mid with _ | h
    · simp only [ModelManager.chat, hr, hl]
      constructor
      · intro _
        exact Or.inr ⟨mid, rfl, hl⟩
      · intro _
        trivial
    rcases hg : gen h message (get_conversation_context m.conversation_manager cid)
      with e | r
    · simp [ModelManager.chat, hr, hl, hg]
    · simp [ModelManager.chat, hr, hl, hg]
  · rcases hr : resolveModelId m mid? with _ | mid
    · simp [chat_streaming, hr]
    rcases hl : dictGet? m.models mid with _ | h
    · simp only [chat_streaming, hr, hl]
      constructor
      · intro _
        exact Or.inr ⟨mid, rfl, hl⟩
      · intro _
        trivial
    rcases hg : genS h message (get_conversation_context m.conversation_manager cid)
      with e | toks
    · simp [chat_streaming, hr, hl, hg]
    · simp only [chat_streaming, hr, hl, hg]
      by_cases hreq : requested ≤ toks.length
      · rw [if_pos hreq]
        simp [hl]
      · rw [if_neg hreq]
        simp [hl]
  · intro mid h hr hl
    constructor
    · intro r hg
      simp [ModelManager.chat, hr, hl, hg]
    · intro e hg
      simp [ModelManager.chat, hr, hl, hg]

theorem dictGet?_head (p : String × α) (d : List (String × α)) :
    dictGet? (p :: d) p.1 = some p.2 := by
  simp [dictGet?]

theorem dictGet?_dictDel_self (d : List (String × α)) (k : String) :
    dictGet? (dictDel d k) k = none := by
  induction d with
  | nil => rfl
  | cons p d ih =>
    by_cases hp : p.1 = k
    · simpa [dictDel, hp] using ih
    · simpa [dictDel, dictGet?, hp] using ih

theorem dictGet?_dictDel_ne (d : List (String × α)) (k k' : String) (h : k' ≠ k) :
    dictGet? (dictDel d k) k' = dictGet? d k' := by
  induction d with
  | nil => rfl
  | cons p d ih =>
    by_cases hp : p.1 = k
    · have hkk : ¬(k = k') := fun he => h he.symm
      simpa [dictDel, List.filter_cons, hp, hkk, dictGet?] using ih
    · by_cases hpk : p.1 = k'
      · simp [dictDel, List.filter_cons, hp, hpk, h, dictGet?]
      · simpa [dictDel, List.filter_cons, hp, hpk, dictGet?] using ih

theorem dictSet_length_of_present (d : List (String × α)) (k : String) (v : α)
    (h : (dictGet? d k).isSome) : (dictSet d k v).length = d.length := by
  unfold dictSet
  rw [if_pos h, List.length_map]

/-- The registry invariant of C5: either nothing is loaded and there is no
default, or the default names a loaded model. -/
def MgrInv (m : ModelManager) : Prop :=
  (m.default_model_id = none ∧ m.models = [])
  ∨ ∃ d h, m.default_model_id = some d ∧ dictGet? m.models d = some h

theorem chat_preserves_registry (m : ModelManager)
    (gen : ModelHandle → String → String → Except String String)
    (message cid : String) (mid? : Option String) (ts1 ts2 : String) :
    ((m.chat gen message cid mid? ts1 ts2).2).models = m.models
      ∧ ((m.chat gen message cid mid? ts1 ts2).2).default_model_id
          = m.default_model_id := by
  rcases hr : resolveModelId m mid? with _ | mid
  · simp [ModelManager.chat, hr]
  rcases hl : dictGet? m.models mid with _ | h
  · simp [ModelManager.chat, hr, hl]
  rcases hg : gen h message (get_conversation_context m.conversation_manager cid) with e | r
  · simp [ModelManager.chat, hr, hl, hg]
  · simp [ModelManager.chat, hr, hl, hg]

theorem chat_streaming_preserves_registry (m : ModelManager)
    (genS : ModelHandle → String → String → Except String (List String))
    (message cid : String) (mid? : Option String) (ts1 ts2 : String) (requested : Nat) :
    ((chat_streaming m genS message cid mid? ts1 ts2 requested).2).models = m.models
      ∧ ((chat_streaming m genS message cid mid? ts1 ts2 requested).2).default_model_id
          = m.default_model_id := by
  rcases hr : resolveModelId m mid? with _ | mid
  · simp [chat_streaming, hr]
  rcases hl : dictGet? m.models mid with _ | h
  · simp [chat_streaming, hr, hl]
  rcases hg : genS h message (get_conversation_context m.conversation_manager cid)
    with e | toks
  · simp [chat_streaming, hr, hl, hg]
  · simp only [chat_streaming, hr, hl, hg]
    by_cases hreq : requested ≤ toks.length
    · rw [if_pos hreq]
      exact ⟨rfl, rfl⟩
    · rw [if_neg hreq]
      exact ⟨rfl, rfl⟩

theorem mgrInv_of_same_registry (m m2 : ModelManager) (hmod : m2.models = m.models)
    (hdef : m2.default_model_id = m.default_model_id) (h : MgrInv m) : MgrInv m2 := by
  rcases h with ⟨h1, h2⟩ | ⟨d, hd, h1, h2⟩
  · exact Or.inl ⟨hdef.trans h1, hmod.trans h2⟩
  · exact Or.inr ⟨d, hd, hdef.trans h1, hmod ▸ h2⟩

theorem mgrInv_applyMgrOp (m : ModelManager) (op : MgrOp) (h : MgrInv m) :
    MgrInv (applyMgrOp m op) := by
  cases op with
  | load path mid? lr =>
    rcases lr with e | hdl
    · exact h
    · show MgrInv (load_model m path mid? (.ok hdl)).2
      unfold load_model
      rcases hd : m.default_model_id with _ | d
      · simp only [hd, if_pos rfl]
        exact Or.inr ⟨_, hdl, rfl, dictGet?_dictSet_self _ _ _⟩
      · simp only [hd]
        rw [if_neg (by simp)]
        rcases h with ⟨h1, _⟩ | ⟨d2, hd2, h1, h2⟩
        · rw [hd] at h1; cases h1
        · rw [hd] at h1
          have hdd : d = d2 := by injection h1
          subst hdd
          by_cases hk : d = (mid?.getD (pathName path))
          · exact Or.inr ⟨d, hdl, rfl, hk ▸ dictGet?_dictSet_self _ _ _⟩
          · exact Or.inr ⟨d, hd2, rfl, (dictGet?_dictSet_ne _ _ _ _ hk).trans h2⟩
  | unload mid =>
    show MgrInv (unload_model m mid)
    by_cases hp : (dictGet? m.models mid).isSome
    · by_cases hd : m.default_model_id = some mid
      · have heq : unload_model m mid
            = ⟨dictDel m.models mid, m.conversation_manager,
               (dictDel m.models mid).head?.map Prod.fst⟩ := by
          unfold unload_model
          rw [if_pos hp]
          simp [hd]
        rw [heq]
        rcases hrem : dictDel m.models mid with _ | ⟨p, rest⟩
        · exact Or.inl ⟨by simp [hrem], by simp [hrem]⟩
        · exact Or.inr ⟨p.1, p.2, by simp [hrem], by simp [hrem, dictGet?_head]⟩
      · have heq : unload_model m mid
            = ⟨dictDel m.models mid, m.conversation_manager, m.default_model_id⟩ := by
          unfold unload_model
          rw [if_pos hp]
          simp [hd]
        rw [heq]
        rcases h with ⟨h1, h2⟩ | ⟨d, hdl, h1, h2⟩
        · rw [h2] at hp; simp [dictGet?] at hp
        · have hne : d ≠ mid := fun he => hd (he ▸ h1)
          exact Or.inr ⟨d, hdl, h1, (dictGet?_dictDel_ne _ _ _ hne).trans h2⟩
    · have heq : unload_model m mid = m := by
        unfold unload_model
        rw [if_neg hp]
      rw [heq]
      exact h
  | setDefault mid =>
    show MgrInv (set_default_model m mid).2
    unfold set_default_model
    by_cases hp : (dictGet? m.models mid).isSome
    · rw [if_pos hp]
      rcases hl : dictGet? m.models mid with _ | hdl
      · rw [hl] at hp; simp at hp
      · exact Or.inr ⟨mid, hdl, rfl, hl⟩
    · rw [if_neg hp]
      exact h
  | chat gen message cid mid? ts1 ts2 =>
    have hpres := chat_preserves_registry m gen message cid mid? ts1 ts2
    exact mgrInv_of_same_registry m _ hpres.1 hpres.2 h
  | chatStreaming genS message cid mid? ts1 ts2 req =>
    have hpres := chat_streaming_preserves_registry m genS message cid mid? ts1 ts2 req
    exact mgrInv_of_same_registry m _ hpres.1 hpres.2 h
  | clearConv cid =>
    exact mgrInv_of_same_registry m _ rfl rfl h

theorem mgrInv_reachable (m : ModelManager) (h : ReachableMgr m) : MgrInv m := by
  induction h with
  | init => exact Or.inl ⟨rfl, rfl⟩
  | step m op _ ih => exact mgrInv_applyMgrOp m op ih

/-- C5: in every reachable registry state, the default id is absent exactly
when nothing is loaded, and otherwise names a loaded model (so a
default-resolved `chat` either fails with `NoModelAvailable` on an empty
registry or reaches a loaded handle, never a stale one); `load` with no
explicit id registers under the path's last segment; the first successful
load sets the default; re-loading an existing id replaces the entry without
error; unloading a loaded default promotes some remaining loaded model or
clears the default. -/
theorem c5_theorem :
    (∀ m : ModelManager, ReachableMgr m →
      (m.default_model_id = none ∧ m.models = [])
      ∨ ∃ d h, m.default_model_id = some d ∧ dictGet? m.models d = some h)
    ∧ (∀ m : ModelManager, ReachableMgr m →
        ∀ gen : ModelHandle → String → String → Except String String,
        ∀ message cid ts1 ts2 : String,
          ((m.chat gen message cid none ts1 ts2).1 = .error (.valueError noModelMsg)
            ∧ m.models = [])
          ∨ ∃ d h, resolveModelId m none = some d ∧ dictGet? m.models d = some h)
    ∧ (∀ m : ModelManager, ∀ path : String, ∀ h : ModelHandle,
        (load_model m path none (.ok h)).1 = .ok (pathName path)
        ∧ dictGet? ((load_model m path none (.ok h)).2).models (pathName path) = some h)
    ∧ (∀ m : ModelManager, ∀ path mid : String, ∀ h0 h : ModelHandle,
        dictGet? m.models mid = some h0 →
        (load_model m path (some mid) (.ok h)).1 = .ok mid
        ∧ dictGet? ((load_model m path (some mid) (.ok h)).2).models mid = some h
        ∧ ((load_model m path (some mid) (.ok h)).2).models.length = m.models.length)
    ∧ (∀ m : ModelManager, ∀ path : String, ∀ mid? : Option String, ∀ h : ModelHandle,
        m.default_model_id = none →
        ((load_model m path mid? (.ok h)).2).default_model_id
          = some (mid?.getD (pathName path)))
    ∧ (∀ m : ModelManager, ∀ d : String, ∀ h0 : ModelHandle,
        m.default_model_id = some d → dictGet? m.models d = some h0 →
        ((unload_model m d).models = [] ∧ (unload_model m d).default_model_id = none)
        ∨ ∃ d2 h2, (unload_model m d).default_model_id = some d2
            ∧ dictGet? (unload_model m d).models d2 = some h2) := by
  refine ⟨mgrInv_reachable, ?_, ?_, ?_, ?_, ?_⟩
  · intro m hm gen message cid ts1 ts2
    rcases mgrInv_reachable m hm with ⟨h1, h2⟩ | ⟨d, hdl, h1, h2⟩
    · exact Or.inl ⟨by simp [ModelManager.chat, resolveModelId, h1], h2⟩
    · exact Or.inr ⟨d, hdl, by simp [resolveModelId, h1], h2⟩
  · intro m path h
    constructor
    · simp [load_model]
    · simp only [load_model, Option.getD_none]
      exact dictGet?_dictSet_self _ _ _
  · intro m path mid h0 h hl
    refine ⟨by simp [load_model], ?_, ?_⟩
    · simp only [load_model, Option.getD_some]
      exact dictGet?_dictSet_self _ _ _
    · simp only [load_model, Option.getD_some]
      exact dictSet_length_of_present _ _ _ (by simp [hl])
  · intro m path mid? h hd
    simp [load_model, hd]
  · intro m d h0 hd hl
    have hp : (dictGet? m.models d).isSome := by simp [hl]
    have heq : unload_model m d
        = ⟨dictDel m.models d, m.conversation_manager,
           (dictDel m.models d).head?.map Prod.fst⟩ := by
      unfold unload_model
      rw [if_pos hp]
      simp [hd]
    rw [heq]
    rcases hrem : dictDel m.models d with _ | ⟨p, rest⟩
    · exact Or.inl ⟨by simp [hrem], by simp [hrem]⟩
    · exact Or.inr ⟨p.1, p.2, by simp [hrem], by simp [hrem, dictGet?_head]⟩

theorem c5_witness :
    (mgrWithM1.default_model_id = none ∧ mgrWithM1.models = [])
    ∨ ∃ d h, mgrWithM1.default_model_id = some d ∧ dictGet? mgrWithM1.models d = some h :=
  c5_theorem.1 mgrWithM1
    (ReachableMgr.step emptyModelManager
      (MgrOp.load "models/m1" none (Except.ok ⟨"models/m1"⟩)) ReachableMgr.init)

theorem mem_streamDrain (q : List (Option String)) (f : String)
    (h : f ∈ streamDrain q) : some f ∈ q := by
  induction q with
  | nil => simp [streamDrain] at h
  | cons o rest ih =>
    cases o with
    | none => simp [streamDrain] at h
    | some t =>
      rcases (by simpa [streamDrain] using h : f = t ∨ f ∈ streamDrain rest) with h1 | h1
      · exact h1 ▸ List.mem_cons_self _ _
      · exact List.mem_cons_of_mem _ (ih h1)

theorem mem_streamerQueue (eos : Nat) (decode : Nat → String) :
    ∀ calls : List StreamerCall, ∀ x : String,
      some x ∈ streamerQueue eos decode calls →
      ∃ tid, tid ≠ eos ∧ x = decode tid ∧ StreamerCall.put [tid] ∈ calls := by
  intro calls
  induction calls with
  | nil => intro x hx; simp [streamerQueue] at hx
  | cons call calls ih =>
    intro x hx
    cases call with
    | endCall =>
      have : some x ∈ streamerQueue eos decode calls := by
        simpa [streamerQueue] using hx
      obtain ⟨tid, h1, h2, h3⟩ := ih x this
      exact ⟨tid, h1, h2, List.mem_cons_of_mem _ h3⟩
    | put ids =>
      rcases ids with _ | ⟨t, rest⟩
      · have : some x ∈ streamerQueue eos decode calls := by
          simpa [streamerQueue] using hx
        obtain ⟨tid, h1, h2, h3⟩ := ih x this
        exact ⟨tid, h1, h2, List.mem_cons_of_mem _ h3⟩
      rcases rest with _ | ⟨t2, rest2⟩
      · by_cases ht : t = eos
        · have : some x ∈ streamerQueue eos decode calls := by
            simpa [streamerQueue, ht] using hx
          obtain ⟨tid, h1, h2, h3⟩ := ih x this
          exact ⟨tid, h1, h2, List.mem_cons_of_mem _ h3⟩
        · rcases (by simpa [streamerQueue, ht] using hx :
              x = decode t ∨ some x ∈ streamerQueue eos decode calls) with h1 | h1
          · exact ⟨t, ht, h1, List.mem_cons_self _ _⟩
          · obtain ⟨tid, ha, hb, hc⟩ := ih x h1
            exact ⟨tid, ha, hb, List.mem_cons_of_mem _ hc⟩
      · have : some x ∈ streamerQueue eos decode calls := by
          simpa [streamerQueue] using hx
        obtain ⟨tid, h1, h2, h3⟩ := ih x this
        exact ⟨tid, h1, h2, List.mem_cons_of_mem _ h3⟩

theorem streamerQueue_append (eos : Nat) (decode : Nat → String)
    (xs ys : List StreamerCall) :
    streamerQueue eos decode (xs ++ ys)
      = streamerQueue eos decode xs ++ streamerQueue eos decode ys := by
  induction xs with
  | nil => rfl
  | cons call xs ih =>
    cases call with
    | endCall => simp [streamerQueue, ih]
    | put ids =>
      rcases ids with _ | ⟨t, rest⟩
      · simpa [streamerQueue] using ih
      rcases rest with _ | ⟨t2, rest2⟩
      · by_cases ht : t = eos
        · simpa [streamerQueue, ht] using ih
        · simp [streamerQueue, ht, ih]
      · simpa [streamerQueue] using ih

theorem streamDrain_append_none (q1 q2 : List (Option String)) :
    streamDrain (q1 ++ none :: q2) = streamDrain (q1 ++ [none]) := by
  induction q1 with
  | nil => rfl
  | cons o rest ih =>
    cases o with
    | none => rfl
    | some t => simp [streamDrain, ih]

/-- C10: every fragment yielded by the streaming path is the decoding of a
single non-`eos_token_id` token handed to `put` (so neither the
end-of-sequence token's text nor any token of a multi-token prompt batch is
ever yielded); a `put` whose value is not a single token enqueues nothing;
and the `None` sentinel pushed by `end()` terminates the consumed sequence -
everything after it is ignored and the sentinel itself is never yielded. -/
theorem c10_theorem (eos : Nat) (decode : Nat → String) :
    (∀ calls : List StreamerCall, ∀ f ∈ streamerYields eos decode calls,
      ∃ tid, tid ≠ eos ∧ f = decode tid ∧ StreamerCall.put [tid] ∈ calls)
    ∧ (∀ ids : List Nat, ∀ calls : List StreamerCall, ids.length ≠ 1 →
        streamerQueue eos decode (.put ids :: calls) = streamerQueue eos decode calls)
    ∧ (∀ calls more : List StreamerCall,
        streamerYields eos decode (calls ++ StreamerCall.endCall :: more)
          = streamerYields eos decode (calls ++ [StreamerCall.endCall])) := by
  refine ⟨?_, ?_, ?_⟩
  · intro calls f hf
    exact mem_streamerQueue eos decode calls f (mem_streamDrain _ _ hf)
  · intro ids calls hlen
    rcases ids with _ | ⟨t, rest⟩
    · rfl
    rcases rest with _ | ⟨t2, rest2⟩
    · simp at hlen
    · rfl
  · intro calls more
    unfold streamerYields
    rw [streamerQueue_append, streamerQueue_append]
    show streamDrain (_ ++ none :: streamerQueue eos decode more)
      = streamDrain (_ ++ [none])
    exact streamDrain_append_none _ _

theorem c10_witness :
    ∃ tid, tid ≠ 3 ∧ String.mk (List.replicate 8 'a') = String.mk (List.replicate tid 'a')
      ∧ StreamerCall.put [tid]
          ∈ [StreamerCall.put [5, 6, 7], StreamerCall.put [8], StreamerCall.put [3],
             StreamerCall.put [9], StreamerCall.endCall, StreamerCall.put [4]] :=
  (c10_theorem 3 (fun n => String.mk (List.replicate n 'a'))).1
    [StreamerCall.put [5, 6, 7], StreamerCall.put [8], StreamerCall.put [3],
     StreamerCall.put [9], StreamerCall.endCall, StreamerCall.put [4]]
    (String.mk (List.replicate 8 'a')) (by decide)

theorem c4_witness :
    resolveModelId emptyModelManager none = emptyModelManager.default_model_id
    ∧ (ModelManager.chat emptyModelManager (fun _ _ _ => Except.ok "r") "hi" "c" none
        "t1" "t2").1 = .error (.valueError noModelMsg) :=
  ⟨(c4_theorem emptyModelManager (fun _ _ _ => Except.ok "r") (fun _ _ _ => Except.ok [])
      "hi" "c" none "t1" "t2" 0).1 rfl,
   ((c4_theorem emptyModelManager (fun _ _ _ => Except.ok "r") (fun _ _ _ => Except.ok [])
      "hi" "c" none "t1" "t2" 0).2.2.1).mpr (Or.inl rfl)⟩

/-! ## The `clean_text` step order (C1) and idempotence (C6) -/

theorem matchUrlAt_eq_none (l : List Char) (h : '/' ∉ l) : matchUrlAt l = none := by
  unfold matchUrlAt
  have h8 : ¬(l.take 8 = "https://".data) := by
    intro he
    exact h (List.take_subset 8 l (by rw [he]; decide))
  have h7 : ¬(l.take 7 = "http://".data) := by
    intro he
    exact h (List.take_subset 7 l (by rw [he]; decide))
  simp [h8, h7]

theorem stripUrlsAux_no_slash : ∀ n l, '/' ∉ l → stripUrlsAux n l = l := by
  intro n
  induction n with
  | zero => intro l _; rfl
  | succ n ih =>
    intro l h
    cases l with
    | nil => rfl
    | cons c cs =>
      simp only [stripUrlsAux, matchUrlAt_eq_none _ h]
      rw [ih cs fun hm => h (List.mem_cons_of_mem _ hm)]

theorem stripUrls_no_slash (l : List Char) (h : '/' ∉ l) : stripUrls l = l :=
  stripUrlsAux_no_slash _ l h

theorem stripEmailsAux_no_at : ∀ n l, '@' ∉ l → stripEmailsAux n l = l := by
  intro n
  induction n with
  | zero => intro l _; rfl
  | succ n ih =>
    intro l h
    cases l with
    | nil => rfl
    | cons c cs =>
      by_cases hsp : isPySpace c
      · simp only [stripEmailsAux, hsp, if_true]
        rw [ih cs fun hm => h (List.mem_cons_of_mem _ hm)]
      · have hrun : emailRun ((c :: cs).takeWhile fun d => !isPySpace d) = false := by
          rcases hr : emailRun ((c :: cs).takeWhile fun d => !isPySpace d) with _ | _
          · rfl
          · exfalso
            have : '@' ∈ ((c :: cs).takeWhile fun d => !isPySpace d) := by
              have hmem : '@' ∈ (((c :: cs).takeWhile
                  fun d => !isPySpace d).drop 1).dropLast := List.elem_iff.mp hr
              exact List.drop_subset _ _ (List.dropLast_subset _ hmem)
            exact h (List.takeWhile_subset _ this)
        simp only [stripEmailsAux, hsp, if_false, hrun, Bool.false_eq_true]
        rw [ih ((c :: cs).dropWhile fun d => !isPySpace d)
          fun hm => h (List.dropWhile_subset _ hm)]
        exact List.takeWhile_append_dropWhile _ _

theorem stripEmails_no_at (l : List Char) (h : '@' ∉ l) : stripEmails l = l :=
  stripEmailsAux_no_at _ l h

theorem quoteNorm1_eq_self (l : List Char) : quoteNorm1 l = l := by
  have hid : ∀ c : Char, (if c = Char.ofNat 34 then Char.ofNat 34 else c) = c := by
    intro c
    by_cases h : c = Char.ofNat 34 <;> simp [h]
  simp [quoteNorm1, hid]

theorem mem_quoteNorm2 (l : List Char) (c : Char) (h : c ∈ quoteNorm2 l) :
    c ∈ l ∨ c = Char.ofNat 39 := by
  unfold quoteNorm2 at h
  obtain ⟨a, ha, hf⟩ := List.mem_map.mp h
  by_cases h1 : (a = Char.ofNat 0x2018 || a = Char.ofNat 0x2019 : Bool)
  · right
    rw [← hf, if_pos h1]
  · left
    rwa [← hf, if_neg h1]

theorem charFilterOk_of_mem_charFilter (l : List Char) (c : Char)
    (h : c ∈ charFilter l) : charFilterOk c = true :=
  (List.mem_filter.mp h).2

/-- Characters of `collapseWs l` are non-whitespace characters of `l` or the
space (whitespace runs only ever turn into single spaces). -/
theorem mem_collapseWs : ∀ l (c : Char), c ∈ collapseWs l →
    (c ∈ l ∧ isPySpace c = false) ∨ c = ' ' := by
  intro l
  induction l with
  | nil => intro c h; simp [collapseWs] at h
  | cons a l ih =>
    cases l with
    | nil =>
      intro c h
      by_cases ha : isPySpace a
      · simp only [collapseWs, ha, if_true, List.mem_singleton] at h
        exact Or.inr h
      · simp only [collapseWs, ha, if_false, List.mem_singleton, Bool.false_eq_true] at h
        exact Or.inl ⟨h ▸ List.mem_cons_self _ _, by subst h; simpa using ha⟩
    | cons b l2 =>
      intro c h
      by_cases ha : isPySpace a
      · by_cases hb : isPySpace b
        · simp only [collapseWs, ha, hb, if_true] at h
          rcases ih c h with ⟨h1, h2⟩ | h1
          · exact Or.inl ⟨List.mem_cons_of_mem _ h1, h2⟩
          · exact Or.inr h1
        · simp only [collapseWs, ha, hb, if_true, if_false, Bool.false_eq_true,
            List.mem_cons] at h
          rcases h with h1 | h1
          · exact Or.inr h1
          · rcases ih c h1 with ⟨h2, h3⟩ | h2
            · exact Or.inl ⟨List.mem_cons_of_mem _ h2, h3⟩
            · exact Or.inr h2
      · simp only [collapseWs, ha, if_false, Bool.false_eq_true, List.mem_cons] at h
        rcases h with h1 | h1
        · exact Or.inl ⟨h1 ▸ List.mem_cons_self _ _, by subst h1; simpa using ha⟩
        · rcases ih c h1 with ⟨h2, h3⟩ | h2
          · exact Or.inl ⟨List.mem_cons_of_mem _ h2, h3⟩
          · exact Or.inr h2

/-- The URL and email substitutions of `clean_text` are the identity at the
position they occupy in the pipeline: the character filter ran earlier and
removed every `/` and `@`. -/
theorem cleanAfterFilter_no_slash_at (s : String) :
    '/' ∉ quoteNorm2 (quoteNorm1 (charFilter (collapseWs s.data)))
      ∧ '@' ∉ quoteNorm2 (quoteNorm1 (charFilter (collapseWs s.data))) := by
  constructor
  · intro hmem
    rcases mem_quoteNorm2 _ _ hmem with h1 | h1
    · rw [quoteNorm1_eq_self] at h1
      have := charFilterOk_of_mem_charFilter _ _ h1
      simp [charFilterOk, isWordChar, isPySpace, Char.isAlphanum, Char.isAlpha,
        Char.isUpper, Char.isLower, Char.isDigit] at this
    · simp [Char.ofNat] at h1
  · intro hmem
    rcases mem_quoteNorm2 _ _ hmem with h1 | h1
    · rw [quoteNorm1_eq_self] at h1
      have := charFilterOk_of_mem_charFilter _ _ h1
      simp [charFilterOk, isWordChar, isPySpace, Char.isAlphanum, Char.isAlpha,
        Char.isUpper, Char.isLower, Char.isDigit] at this
    · simp [Char.ofNat] at h1

/-- The URL and email steps contribute nothing to `clean_text`: by their
position in the pipeline the character filter has already removed every `/`
and `@`. -/
theorem clean_text_eq (s : String) :
    clean_text s
      = String.mk (pyStrip (quoteNorm2 (quoteNorm1 (charFilter (collapseWs s.data))))) := by
  have h1 : clean_text s = String.mk (pyStrip (stripEmails (stripUrls
      (quoteNorm2 (quoteNorm1 (charFilter (collapseWs s.data))))))) := rfl
  obtain ⟨hs, ha⟩ := cleanAfterFilter_no_slash_at s
  rw [h1, stripUrls_no_slash _ hs, stripEmails_no_at _ ha]

/-- C1 counterexample: in the source pipeline the whitespace collapse is the
FIRST step and URL/email stripping come after (so the collapse step operates
on raw text that may still contain URL/email tokens); moreover on a concrete
URL-bearing input the spec-ordered pipeline and the source pipeline disagree:
the source order leaves a mangled URL behind (the character filter deletes
the slashes before the URL pattern can match). -/
theorem c1_counterexample :
    ¬(cleanStepsSource.indexOf CleanStep.urls < cleanStepsSource.indexOf CleanStep.collapse
      ∧ cleanStepsSource.indexOf CleanStep.emails
          < cleanStepsSource.indexOf CleanStep.collapse)
    ∧ cleanTextSpecOrder "see http://a.com now" ≠ clean_text "see http://a.com now"
    ∧ clean_text "see http://a.com now" = "see http:a.com now"
    ∧ cleanTextSpecOrder "see http://a.com now" = "see now" := by
  exact ⟨by decide, by decide, by decide, by decide⟩

/-- C1 (amended): `clean_text` collapses whitespace FIRST (the collapse step
precedes both stripping steps in the source order), and by the time the URL
and email substitutions run, the character filter has removed every `/` and
`@`, so they never change the text: `clean_text` is exactly
strip ∘ quote-normalize ∘ char-filter ∘ collapse. -/
theorem c1_theorem (s : String) :
    (cleanStepsSource.indexOf CleanStep.collapse < cleanStepsSource.indexOf CleanStep.urls
      ∧ cleanStepsSource.indexOf CleanStep.collapse
          < cleanStepsSource.indexOf CleanStep.emails)
    ∧ clean_text s
        = String.mk (pyStrip (quoteNorm2 (quoteNorm1 (charFilter (collapseWs s.data))))) := by
  exact ⟨by decide, clean_text_eq s⟩

theorem mem_pyStrip (l : List Char) (c : Char) (h : c ∈ pyStrip l) : c ∈ l := by
  unfold pyStrip at h
  rw [List.mem_reverse] at h
  have h2 := (List.dropWhile_suffix isPySpace).subset h
  rw [List.mem_reverse] at h2
  exact (List.dropWhile_suffix isPySpace).subset h2

theorem dropWhile_dropWhile (p : Char → Bool) (l : List Char) :
    (l.dropWhile p).dropWhile p = l.dropWhile p := by
  induction l with
  | nil => rfl
  | cons a t ih =>
    by_cases h : p a
    · simp [List.dropWhile_cons, h, ih]
    · simp [List.dropWhile_cons, h]

theorem head?_dropWhile (p : Char → Bool) (l : List Char) (a : Char)
    (h : (l.dropWhile p).head? = some a) : p a = false := by
  induction l with
  | nil => simp [List.dropWhile] at h
  | cons b t ih =>
    by_cases hb : p b
    · rw [List.dropWhile_cons_of_pos hb] at h
      exact ih h
    · rw [List.dropWhile_cons_of_neg hb] at h
      simp at h
      subst h
      simpa using hb

theorem getLast?_dropWhile_of_ne_nil (p : Char → Bool) (l : List Char)
    (h : l.dropWhile p ≠ []) : (l.dropWhile p).getLast? = l.getLast? := by
  obtain ⟨t, ht⟩ := List.dropWhile_suffix (l := l) p
  conv_rhs => rw [← ht]
  exact (List.getLast?_append_of_ne_nil t h).symm

theorem pyStrip_idem (l : List Char) : pyStrip (pyStrip l) = pyStrip l := by
  have key : ∀ m : List Char, (pyStrip m).dropWhile isPySpace = pyStrip m := by
    intro m
    cases hu : pyStrip m with
    | nil => rfl
    | cons a t =>
      have hhead : (pyStrip m).head? = some a := by rw [hu]; rfl
      have ha : isPySpace a = false := by
        unfold pyStrip at hhead
        rw [List.head?_reverse] at hhead
        have hne : ((m.dropWhile isPySpace).reverse).dropWhile isPySpace ≠ [] := by
          intro hnil
          unfold pyStrip at hu
          rw [hnil] at hu
          cases hu
        rw [getLast?_dropWhile_of_ne_nil _ _ hne, List.getLast?_reverse] at hhead
        exact head?_dropWhile _ _ _ hhead
      exact List.dropWhile_cons_of_neg (by simp [ha])
  have step1 : (pyStrip l).dropWhile isPySpace = pyStrip l := key l
  show (((pyStrip l).dropWhile isPySpace).reverse.dropWhile isPySpace).reverse = pyStrip l
  rw [step1]
  have step2 : (pyStrip l).reverse = ((l.dropWhile isPySpace).reverse).dropWhile isPySpace := by
    show ((((l.dropWhile isPySpace).reverse).dropWhile isPySpace).reverse).reverse = _
    rw [List.reverse_reverse]
  rw [step2, dropWhile_dropWhile, ← step2, List.reverse_reverse]

theorem collapseWs_cons_of_not_space (a : Char) (t : List Char)
    (ha : isPySpace a = false) : collapseWs (a :: t) = a :: collapseWs t := by
  cases t with
  | nil => simp [collapseWs, ha]
  | cons b r => simp [collapseWs, ha]

/-- A fixed point of the whitespace collapse: every whitespace character is
the plain space and no two adjacent characters are both whitespace. -/
def Collapsed (l : List Char) : Prop :=
  (∀ c ∈ l, isPySpace c = true → c = ' ')
  ∧ l.Chain' fun a b => ¬(isPySpace a = true ∧ isPySpace b = true)

theorem collapsed_collapseWs : ∀ l, Collapsed (collapseWs l) := by
  intro l
  induction l with
  | nil => exact ⟨by simp [collapseWs], by simp [collapseWs]⟩
  | cons a l ih =>
    cases l with
    | nil =>
      constructor
      · intro c hc _
        by_cases ha : isPySpace a
        · simp only [collapseWs, ha, if_true, List.mem_singleton] at hc
          exact hc
        · simp only [collapseWs, ha, if_false, Bool.false_eq_true,
            List.mem_singleton] at hc
          subst hc
          simp_all
      · by_cases ha : isPySpace a <;> simp [collapseWs, ha]
    | cons b l2 =>
      by_cases ha : isPySpace a
      · by_cases hb : isPySpace b
        · show Collapsed (collapseWs (a :: b :: l2))
          simp only [collapseWs, ha, hb, if_true]
          exact ih
        · show Collapsed (collapseWs (a :: b :: l2))
          simp only [collapseWs, ha, hb, if_true, if_false, Bool.false_eq_true]
          obtain ⟨ihm, ihc⟩ := ih
          constructor
          · intro c hc hsp
            rcases List.mem_cons.mp hc with h1 | h1
            · exact h1
            · exact ihm c h1 hsp
          · rw [collapseWs_cons_of_not_space b l2 (by simpa using hb)] at ihc ⊢
            exact List.Chain'.cons (by simp [hb]) ihc
      · show Collapsed (collapseWs (a :: b :: l2))
        simp only [collapseWs, ha, if_false, Bool.false_eq_true]
        obtain ⟨ihm, ihc⟩ := ih
        constructor
        · intro c hc hsp
          rcases List.mem_cons.mp hc with h1 | h1
          · subst h1; simp_all
          · exact ihm c h1 hsp
        · exact (List.chain'_cons'.mpr ⟨fun y _ => by simp [ha], ihc⟩)

theorem collapseWs_eq_self_of_collapsed : ∀ l, Collapsed l → collapseWs l = l := by
  intro l
  induction l with
  | nil => intro _; rfl
  | cons a l ih =>
    intro ⟨hm, hc⟩
    cases l with
    | nil =>
      by_cases ha : isPySpace a
      · have := hm a (List.mem_cons_self _ _) (by simpa using ha)
        simp [collapseWs, ha, this]
      · simp [collapseWs, ha]
    | cons b l2 =>
      have htail : Collapsed (b :: l2) :=
        ⟨fun c hcm hsp => hm c (List.mem_cons_of_mem _ hcm) hsp, (List.chain'_cons.mp hc).2⟩
      by_cases ha : isPySpace a
      · have ha' : a = ' ' := hm a (List.mem_cons_self _ _) (by simpa using ha)
        have hab := (List.chain'_cons.mp hc).1
        have hb : ¬(isPySpace b = true) := fun hbt => hab ⟨by simpa using ha, hbt⟩
        simp only [collapseWs, ha, if_true]
        rw [if_neg (by simp [hb]), ih htail, ha']
      · simp only [collapseWs, ha, if_false, Bool.false_eq_true]
        rw [ih htail]

theorem collapsed_suffix (l l2 : List Char) (h : Collapsed l) (hs : l2 <:+ l) :
    Collapsed l2 :=
  ⟨fun c hc hsp => h.1 c (hs.subset hc) hsp, List.Chain'.suffix h.2 hs⟩

theorem collapsed_reverse (l : List Char) (h : Collapsed l) : Collapsed l.reverse := by
  refine ⟨fun c hc hsp => h.1 c (List.mem_reverse.mp hc) hsp, ?_⟩
  rw [List.chain'_reverse]
  exact h.2.imp fun a b hab ⟨h1, h2⟩ => hab ⟨h2, h1⟩

theorem collapsed_pyStrip (l : List Char) (h : Collapsed l) : Collapsed (pyStrip l) := by
  unfold pyStrip
  apply collapsed_reverse
  apply collapsed_suffix _ _ _ (List.dropWhile_suffix _)
  apply collapsed_reverse
  exact collapsed_suffix _ _ h (List.dropWhile_suffix _)

theorem map_eq_self_of_forall (l : List α) (f : α → α) (h : ∀ c ∈ l, f c = c) :
    l.map f = l := by
  induction l with
  | nil => rfl
  | cons a t ih =>
    rw [List.map_cons, h a (List.mem_cons_self _ _),
      ih fun c hc => h c (List.mem_cons_of_mem _ hc)]

theorem charFilter_eq_self (l : List Char) (h : ∀ c ∈ l, charFilterOk c = true) :
    charFilter l = l :=
  List.filter_eq_self.mpr h

theorem quoteNorm2_eq_self_of_ok (l : List Char) (h : ∀ c ∈ l, charFilterOk c = true) :
    quoteNorm2 l = l := by
  apply map_eq_self_of_forall
  intro c hc
  have hok := h c hc
  have h18 : ¬(c = Char.ofNat 0x2018) := by
    intro he
    subst he
    exact absurd hok (by decide)
  have h19 : ¬(c = Char.ofNat 0x2019) := by
    intro he
    subst he
    exact absurd hok (by decide)
  rw [if_neg (by simp [h18, h19])]

/-- On whitelist-only input, `clean_text` is just strip-after-collapse. -/
theorem clean_text_eq_of_ok (t : String) (ht : ∀ c ∈ t.data, charFilterOk c = true) :
    clean_text t = String.mk (pyStrip (collapseWs t.data)) := by
  have hcoll_ok : ∀ c ∈ collapseWs t.data, charFilterOk c = true := by
    intro c hc
    rcases mem_collapseWs _ _ hc with ⟨h1, _⟩ | h1
    · exact ht c h1
    · subst h1; decide
  rw [clean_text_eq, charFilter_eq_self _ hcoll_ok, quoteNorm1_eq_self,
    quoteNorm2_eq_self_of_ok _ hcoll_ok]

/-- C6 counterexample: `clean` is not idempotent.  On `"a @ b"` the character
filter deletes the `@`, leaving the double space `"a  b"`, which a second
application collapses to `"a b"`. -/
theorem c6_counterexample :
    clean_text (clean_text "a @ b") ≠ clean_text "a @ b"
    ∧ clean_text "a @ b" = "a  b"
    ∧ clean_text (clean_text "a @ b") = "a b" := by
  exact ⟨by decide, by decide, by decide⟩

/-- C6 (amended): `clean` is idempotent on every input whose characters all
pass the character filter (deleting a filtered character is the only way a
first pass can leave a whitespace run for a second pass to collapse). -/
theorem c6_theorem (s : String) (h : ∀ c ∈ s.data, charFilterOk c = true) :
    clean_text (clean_text s) = clean_text s := by
  have hz : ∀ c ∈ pyStrip (collapseWs s.data), charFilterOk c = true := by
    intro c hc
    rcases mem_collapseWs _ _ (mem_pyStrip _ _ hc) with ⟨h1, _⟩ | h1
    · exact h c h1
    · subst h1; decide
  rw [clean_text_eq_of_ok s h]
  rw [clean_text_eq_of_ok (String.mk (pyStrip (collapseWs s.data))) hz]
  show String.mk (pyStrip (collapseWs (pyStrip (collapseWs s.data))))
    = String.mk (pyStrip (collapseWs s.data))
  rw [collapseWs_eq_self_of_collapsed _ (collapsed_pyStrip _ (collapsed_collapseWs _)),
    pyStrip_idem]

theorem c6_witness :
    (∀ c ∈ ("ab  cd" : String).data, charFilterOk c = true)
    ∧ clean_text (clean_text "ab  cd") = clean_text "ab  cd" :=
  ⟨by decide, c6_theorem "ab  cd" (by decide)⟩

/-! ## Chunking (C7) -/

theorem pySplitAux_props : ∀ (l acc : List Char), (∀ c ∈ acc, isPySpace c = false) →
    ∀ w ∈ pySplitAux l acc, w ≠ [] ∧ ∀ c ∈ w, isPySpace c = false := by
  intro l
  induction l with
  | nil =>
    intro acc hacc w hw
    by_cases he : acc.isEmpty
    · simp [pySplitAux, he] at hw
    · simp only [pySplitAux, he, if_false, Bool.false_eq_true, List.mem_singleton] at hw
      subst hw
      refine ⟨by simpa using fun h => he (by simp [h]), ?_⟩
      intro c hc
      exact hacc c (List.mem_reverse.mp hc)
  | cons a l ih =>
    intro acc hacc w hw
    by_cases ha : isPySpace a
    · by_cases he : acc.isEmpty
      · simp only [pySplitAux, ha, if_true, he] at hw
        exact ih [] (by simp) w hw
      · simp only [pySplitAux, ha, if_true, he, if_false, Bool.false_eq_true,
          List.mem_cons] at hw
        rcases hw with hw | hw
        · subst hw
          refine ⟨by simpa using fun h => he (by simp [h]), ?_⟩
          intro c hc
          exact hacc c (List.mem_reverse.mp hc)
        · exact ih [] (by simp) w hw
    · simp only [pySplitAux, ha, if_false, Bool.false_eq_true] at hw
      refine ih (a :: acc) ?_ w hw
      intro c hc
      rcases List.mem_cons.mp hc with h1 | h1
      · subst h1; simpa using ha
      · exact hacc c h1

theorem pySplitWords_props (l : List Char) :
    ∀ w ∈ pySplitWords l, w ≠ [] ∧ ∀ c ∈ w, isPySpace c = false :=
  pySplitAux_props l [] (by simp)

theorem pySplitAux_append_word : ∀ (w l acc : List Char),
    (∀ c ∈ w, isPySpace c = false) →
    pySplitAux (w ++ l) acc = pySplitAux l (w.reverse ++ acc) := by
  intro w
  induction w with
  | nil => intro l acc _; simp
  | cons c w ih =>
    intro l acc hw
    have hc : isPySpace c = false := hw c (List.mem_cons_self _ _)
    show pySplitAux (c :: (w ++ l)) acc = _
    simp only [pySplitAux, hc, Bool.false_eq_true, if_false]
    rw [ih l (c :: acc) fun d hd => hw d (List.mem_cons_of_mem _ hd)]
    simp

theorem pySplitAux_space_cons (l acc : List Char) (hacc : ¬acc.isEmpty) :
    pySplitAux (' ' :: l) acc = acc.reverse :: pySplitAux l [] := by
  simp [pySplitAux, isPySpace, hacc]

theorem pySplit_joinSpace : ∀ ws : List (List Char),
    (∀ w ∈ ws, w ≠ [] ∧ ∀ c ∈ w, isPySpace c = false) →
    pySplitWords (joinSpace ws) = ws := by
  intro ws
  induction ws with
  | nil => intro _; rfl
  | cons w ws ih =>
    intro h
    obtain ⟨hwne, hwns⟩ := h w (List.mem_cons_self _ _)
    cases ws with
    | nil =>
      show pySplitAux (joinSpace [w]) [] = [w]
      have : joinSpace [w] = w ++ [] := by simp [joinSpace]
      rw [this, pySplitAux_append_word w [] [] hwns]
      have hne : ¬(w.reverse ++ ([] : List Char)).isEmpty = true := by
        simpa using hwne
      simp [pySplitAux, hne, hwne]
    | cons w2 ws2 =>
      show pySplitAux (joinSpace (w :: w2 :: ws2)) [] = w :: w2 :: ws2
      have : joinSpace (w :: w2 :: ws2) = w ++ ' ' :: joinSpace (w2 :: ws2) := rfl
      rw [this, pySplitAux_append_word w _ [] hwns,
        pySplitAux_space_cons _ _ (by simpa using hwne)]
      simp only [List.append_nil, List.reverse_reverse]
      rw [show pySplitAux (joinSpace (w2 :: ws2)) [] = pySplitWords (joinSpace (w2 :: ws2))
          from rfl]
      rw [ih fun v hv => h v (List.mem_cons_of_mem _ hv)]

theorem pyIntTimes_zero (x : Nat) : pyIntTimes x 0 = 0 := by
  simp [pyIntTimes, truncDivNat]

/-- C7 counterexample: with the `min_length` filter in force (here the source
default 10), a chunk size of 2 on a 4-word text (4 is a multiple of 2,
overlap 0) drops every window, so the chunk word counts sum to 0, not 4. -/
theorem c7_counterexample :
    chunk_text ⟨512, 10, 0, 1000, mkRat 1 10, true, some "en"⟩ ("a b c d").data 2
      = .ok []
    ∧ (pySplitWords ("a b c d").data).length = 4
    ∧ 2 ∣ 4
    ∧ (([] : List (List Char)).map fun ch => (pySplitWords ch).length).sum ≠ 4 := by
  exact ⟨rfl, by decide, by decide, by decide⟩

/-- C7 (amended): when additionally no window can be dropped by the
`min_length` filter (`min_length ≤ n`), `chunk_text` with overlap ratio 0 on
a text whose word count is a positive multiple of `n` produces chunks whose
word counts sum exactly to the text's word count. -/
theorem c7_theorem (cfg : DataProcessingConfig) (text : List Char) (n : Nat)
    (hov : cfg.overlap_frac = 0) (hn : 0 < n) (hmin : cfg.min_length ≤ n)
    (hdvd : n ∣ (pySplitWords text).length) :
    ∃ chunks, chunk_text cfg text n = .ok chunks
      ∧ (chunks.map fun ch => (pySplitWords ch).length).sum
          = (pySplitWords text).length := by
  obtain ⟨k, hk⟩ := hdvd
  have hov0 : pyIntTimes n cfg.overlap_frac = 0 := by rw [hov]; exact pyIntTimes_zero n
  have hne : ¬((n : Int) - 0 = 0) := by
    simp only [sub_zero]
    exact_mod_cast hn.ne'
  have hnlt : ¬((n : Int) - 0 < 0) := by
    simp only [sub_zero]
    omega
  have heval : chunk_text cfg text n
      = .ok (((rangePos (pySplitWords text).length n).map
          fun i => joinSpace (((pySplitWords text).drop i).take n)).filter
            fun ch => cfg.min_length ≤ (pySplitWords ch).length) := by
    unfold chunk_text
    rw [hov0]
    rw [if_neg hne, if_neg hnlt]
    have : ((n : Int) - 0).toNat = n := by
      simp only [sub_zero]
      exact Int.toNat_natCast n
    rw [this]
  have hwin : ∀ i ∈ List.range k,
      pySplitWords (joinSpace (((pySplitWords text).drop (i * n)).take n))
        = ((pySplitWords text).drop (i * n)).take n := by
    intro i _
    apply pySplit_joinSpace
    intro w hw
    exact pySplitWords_props text w (List.drop_subset _ _ (List.take_subset _ _ hw))
  have hwinlen : ∀ i ∈ List.range k,
      (((pySplitWords text).drop (i * n)).take n).length = n := by
    intro i hi
    rw [List.length_take, List.length_drop, hk]
    have := List.mem_range.mp hi
    have : i * n + n ≤ n * k := by
      calc i * n + n = (i + 1) * n := by ring
      _ ≤ k * n := Nat.mul_le_mul_right n (by omega)
      _ = n * k := Nat.mul_comm k n
    omega
  have hrange : rangePos (pySplitWords text).length n = (List.range k).map (· * n) := by
    unfold rangePos
    rw [hk]
    congr 1
    have h1 : n * k + n - 1 = n * k + (n - 1) := by omega
    rw [h1, Nat.mul_add_div hn, Nat.div_eq_of_lt (by omega)]
    simp
  have hfil : (((List.range k).map (· * n)).map
        (fun i => joinSpace (((pySplitWords text).drop i).take n))).filter
          (fun ch => cfg.min_length ≤ (pySplitWords ch).length)
      = ((List.range k).map (· * n)).map
          fun i => joinSpace (((pySplitWords text).drop i).take n) := by
    apply List.filter_eq_self.mpr
    intro ch hch
    rw [List.map_map] at hch
    obtain ⟨i, hi, rfl⟩ := List.mem_map.mp hch
    have := hwin i hi
    have hlen := hwinlen i hi
    simp only [Function.comp]
    rw [decide_eq_true_eq]
    show cfg.min_length ≤ (pySplitWords (joinSpace (((pySplitWords text).drop (i * n)).take n))).length
    rw [hwin i hi, hwinlen i hi]
    exact hmin
  refine ⟨_, heval, ?_⟩
  rw [hrange, hfil, List.map_map, List.map_map]
  trans ((List.range k).map fun _ => n).sum
  · apply congrArg List.sum
    apply List.map_congr_left
    intro i hi
    show (pySplitWords (joinSpace (((pySplitWords text).drop (i * n)).take n))).length = n
    rw [hwin i hi, hwinlen i hi]
  · rw [List.map_const', List.sum_replicate, List.length_range, smul_eq_mul, hk,
      Nat.mul_comm]

theorem c7_witness :
    ((⟨512, 1, 0, 1000, mkRat 1 10, true, some "en"⟩ : DataProcessingConfig).overlap_frac
        = 0)
    ∧ 0 < 2
    ∧ ((⟨512, 1, 0, 1000, mkRat 1 10, true, some "en"⟩ : DataProcessingConfig).min_length
        ≤ 2)
    ∧ 2 ∣ (pySplitWords ("a b c d").data).length
    ∧ ∃ chunks,
        chunk_text ⟨512, 1, 0, 1000, mkRat 1 10, true, some "en"⟩ ("a b c d").data 2
          = .ok chunks
        ∧ (chunks.map fun ch => (pySplitWords ch).length).sum
            = (pySplitWords ("a b c d").data).length :=
  ⟨rfl, by decide, by decide, by decide,
   c7_theorem ⟨512, 1, 0, 1000, mkRat 1 10, true, some "en"⟩ ("a b c d").data 2
     rfl (by decide) (by decide) (by decide)⟩

/-! ## Deduplication (C8) -/

theorem removeDupAux_all_new : ∀ ts seen : List (List Char),
    (ts.map dedupKey).Nodup → (∀ x ∈ ts, dedupKey x ∉ seen) →
    removeDupAux ts seen = ts := by
  intro ts
  induction ts with
  | nil => intro seen _ _; rfl
  | cons t ts ih =>
    intro seen hnd hns
    rw [List.map_cons] at hnd
    obtain ⟨hhead, htail⟩ := List.nodup_cons.mp hnd
    show removeDupAux (t :: ts) seen = t :: ts
    rw [removeDupAux, if_neg (hns t (List.mem_cons_self _ _))]
    rw [ih (dedupKey t :: seen) htail ?_]
    intro x hx hmem
    rcases List.mem_cons.mp hmem with h1 | h1
    · exact hhead (h1 ▸ List.mem_map_of_mem dedupKey hx)
    · exact hns x (List.mem_cons_of_mem _ hx) h1

theorem removeDupAux_append : ∀ xs ys seen : List (List Char),
    (xs.map dedupKey).Nodup → (∀ x ∈ xs, dedupKey x ∉ seen) →
    removeDupAux (xs ++ ys) seen
      = xs ++ removeDupAux ys ((xs.map dedupKey).reverse ++ seen) := by
  intro xs
  induction xs with
  | nil => intro ys seen _ _; simp
  | cons t xs ih =>
    intro ys seen hnd hns
    rw [List.map_cons] at hnd
    obtain ⟨hhead, htail⟩ := List.nodup_cons.mp hnd
    show removeDupAux (t :: (xs ++ ys)) seen = _
    rw [removeDupAux, if_neg (hns t (List.mem_cons_self _ _))]
    rw [ih ys (dedupKey t :: seen) htail ?_]
    · simp [List.append_assoc]
    · intro x hx hmem
      rcases List.mem_cons.mp hmem with h1 | h1
      · exact hhead (h1 ▸ List.mem_map_of_mem dedupKey hx)
      · exact hns x (List.mem_cons_of_mem _ hx) h1

/-- C8: with dedup enabled, a list containing one exact duplicate (and no
other key collision) loses exactly that later duplicate: the first
occurrence survives and the survivors keep their input order; the dedup key
is case- and space-insensitive. -/
theorem c8_theorem (cfg : DataProcessingConfig) (l1 l2 l3 : List (List Char))
    (t : List Char) (hen : cfg.dedup_enabled = true)
    (hnd : (((l1 ++ t :: l2) ++ l3).map dedupKey).Nodup) :
    remove_duplicates cfg ((l1 ++ t :: l2) ++ t :: l3) = (l1 ++ t :: l2) ++ l3
    ∧ (remove_duplicates cfg ((l1 ++ t :: l2) ++ t :: l3)).length + 1
        = ((l1 ++ t :: l2) ++ t :: l3).length
    ∧ dedupKey ("Hello  World").data = dedupKey ("hello world").data := by
  have hmain : remove_duplicates cfg ((l1 ++ t :: l2) ++ t :: l3) = (l1 ++ t :: l2) ++ l3 := by
    unfold remove_duplicates
    rw [if_pos hen]
    rw [List.map_append] at hnd
    obtain ⟨hnd1, hnd3, hdisj⟩ := List.nodup_append.mp hnd
    rw [removeDupAux_append (l1 ++ t :: l2) (t :: l3) [] hnd1 (by simp)]
    congr 1
    have htin : dedupKey t ∈ ((l1 ++ t :: l2).map dedupKey).reverse ++ [] := by
      simp only [List.append_nil, List.mem_reverse]
      exact List.mem_map_of_mem dedupKey (by simp)
    rw [removeDupAux, if_pos htin]
    apply removeDupAux_all_new l3 _ hnd3
    intro x hx hmem
    simp only [List.append_nil, List.mem_reverse] at hmem
    exact hdisj hmem (List.mem_map_of_mem dedupKey hx)
  refine ⟨hmain, ?_, by decide⟩
  rw [hmain]
  simp only [List.length_append, List.length_cons]
  omega

theorem c8_witness :
    defaultDataConfig.dedup_enabled = true
    ∧ ((((["A b".data] ++ "x y".data :: ["c".data]) ++ ["d".data]).map dedupKey).Nodup)
    ∧ remove_duplicates defaultDataConfig
        ((["A b".data] ++ "x y".data :: ["c".data]) ++ "x y".data :: ["d".data])
      = (["A b".data] ++ "x y".data :: ["c".data]) ++ ["d".data] :=
  ⟨rfl, by decide,
   (c8_theorem defaultDataConfig ["A b".data] ["c".data] ["d".data] "x y".data
     rfl (by decide)).1⟩

/-! ## Train/validation split (C9) -/

def sampleCfg : DataProcessingConfig :=
  ⟨512, 1, 0, 3, mkRat 1 5, true, some "en"⟩

def sampleReads : List (Except String String) :=
  [.ok "Aa bb. Cc", .ok "Dd ee. Ff", .ok "Gg hh. Ii", .ok "Jj kk. Ll",
   .ok "Mm nn. Oo", .ok "Pp qq. Rr", .ok "Ss tt. Uu", .ok "Vv ww. Xx",
   .ok "Yy zz. Ab", .ok "Cd ef. Gh"]

def sampleExamples : List TrainingExample :=
  ((create_training_examples sampleCfg (remove_duplicates sampleCfg
    ((load_text_files sampleReads).map fun t => (clean_text t).data))).toOption).getD []

theorem truncDivNat_of_nonneg (a : Int) (d : Nat) (ha : 0 ≤ a) :
    truncDivNat a d = ((a.toNat / d : Nat) : Int) := by
  unfold truncDivNat
  rw [if_neg (by omega)]

theorem pyIntOneSubTimes_eq_floor (N : Nat) (v : ℚ) (hv : v ≤ 1) :
    pyIntOneSubTimes N v = Int.floor ((N : ℚ) * (1 - v)) := by
  have hnum_le : v.num ≤ (v.den : Int) := by
    have h2 := Rat.le_def.mp hv
    simpa using h2
  have hden : ((v.den : Nat) : ℚ) ≠ 0 := Nat.cast_ne_zero.mpr v.den_nz
  have hcast : (N : ℚ) * (1 - v)
      = (((N : Int) * ((v.den : Int) - v.num) : Int) : ℚ) / ((v.den : Nat) : ℚ) := by
    rw [eq_div_iff hden]
    push_cast
    rw [show (v.num : ℚ) = v * (v.den : ℚ) from (Rat.mul_den_eq_num v).symm]
    ring
  rw [hcast, Rat.floor_intCast_div_natCast]
  have ha : 0 ≤ (N : Int) * ((v.den : Int) - v.num) := by
    apply mul_nonneg (by exact_mod_cast Nat.zero_le N)
    omega
  unfold pyIntOneSubTimes
  rw [truncDivNat_of_nonneg _ _ ha]
  conv_rhs => rw [← Int.toNat_of_nonneg ha]
  exact_mod_cast (Int.ofNat_ediv _ _).symm

/-- C9: `process_data` splits the synthesized example list by index at
`int(N * (1 - validation_split))` - which equals `floor(N * (1 - v))`
whenever `v ≤ 1` - into the first part (train) and the remainder
(validation), in synthesis order; in particular, with `validation_split =
1/5` the ten examples synthesized from `sampleReads` split into the first 8
(train) and the last 2 (validation), in original order. -/
theorem c9_theorem (cfg : DataProcessingConfig) (reads : List (Except String String))
    (examples : List TrainingExample) (hv : cfg.validation_split ≤ 1)
    (hex : create_training_examples cfg (remove_duplicates cfg
      ((load_text_files reads).map fun t => (clean_text t).data)) = .ok examples) :
    process_data cfg reads
      = .ok (examples.take
              (pyIntOneSubTimes examples.length cfg.validation_split).toNat,
             examples.drop
              (pyIntOneSubTimes examples.length cfg.validation_split).toNat)
    ∧ pyIntOneSubTimes examples.length cfg.validation_split
        = Int.floor ((examples.length : ℚ) * (1 - cfg.validation_split))
    ∧ sampleExamples.length = 10
    ∧ process_data sampleCfg sampleReads
        = .ok (sampleExamples.take 8, sampleExamples.drop 8) := by
  have hk0 : 0 ≤ pyIntOneSubTimes examples.length cfg.validation_split := by
    have hnum_le : cfg.validation_split.num ≤ (cfg.validation_split.den : Int) := by
      have h2 := Rat.le_def.mp hv
      simpa using h2
    have ha : 0 ≤ (examples.length : Int)
        * ((cfg.validation_split.den : Int) - cfg.validation_split.num) := by
      apply mul_nonneg (by exact_mod_cast Nat.zero_le examples.length)
      omega
    unfold pyIntOneSubTimes
    rw [truncDivNat_of_nonneg _ _ ha]
    exact_mod_cast Nat.zero_le _
  refine ⟨?_, pyIntOneSubTimes_eq_floor _ _ hv, by decide, rfl⟩
  unfold process_data
  rw [hex]
  show Except.ok (pySliceUpto examples _, pySliceFrom examples _) = _
  rw [pySliceUpto, pySliceFrom, if_pos hk0, if_pos hk0]

theorem c9_witness :
    sampleCfg.validation_split ≤ 1
    ∧ create_training_examples sampleCfg (remove_duplicates sampleCfg
        ((load_text_files sampleReads).map fun t => (clean_text t).data))
        = .ok sampleExamples
    ∧ process_data sampleCfg sampleReads
        = .ok (sampleExamples.take
                (pyIntOneSubTimes sampleExamples.length sampleCfg.validation_split).toNat,
               sampleExamples.drop
                (pyIntOneSubTimes sampleExamples.length sampleCfg.validation_split).toNat) :=
  ⟨by norm_num [sampleCfg, mkRat, Rat.normalize],
   rfl,
   (c9_theorem sampleCfg sampleReads sampleExamples
     (by norm_num [sampleCfg, mkRat, Rat.normalize]) rfl).1⟩
